import Mathlib

/-!
Verification of the `WidgetId` compact path identifier from
`crates/kas-core/src/core/widget_id.rs`.

The 64-bit identifier word is shallowly embedded over `Nat`: machine
`u64`/`usize` arithmetic is `Nat` arithmetic with an explicit `% 2 ^ 64`
wherever the Rust code can discard high bits (wrapping left shifts).
The three runtime variants of `IntOrPtr::get` (`Invalid`, `Int`, `Slice`)
become the constructors of `WidgetId`; the out-of-line heap array is
carried directly as the list of indices it stores.  Operations that can
panic return `Option` (`none` = panic).
-/

namespace Kas

/-- `const INVALID: u64 = !0` -/
def INVALID : Nat := 2 ^ 64 - 1

/-- `const USE_BITS: u64 = 0x01` -/
def USE_BITS : Nat := 0x01

/-- `const MASK_LEN: u64 = 0xF0` -/
def MASK_LEN : Nat := 0xF0

/-- `const BLOCKS: u8 = 14` -/
def BLOCKS : Nat := 14

/-- `const MASK_BITS: u64 = 0xFFFF_FFFF_FFFF_FF00` -/
def MASK_BITS : Nat := 0xFFFFFFFFFFFFFF00

/-- `const MASK_PTR: usize = 0xFFFF_FFFF_FFFF_FFFC` (64-bit target) -/
def MASK_PTR : Nat := 0xFFFFFFFFFFFFFFFC

/-- The `while x != 0` loop of `fn encode`: accumulates continuation
blocks `8 | (x & 7)` into `y` at bit position `shift`, stepping `x >>= 3`,
`shift += 4`.  `encode` enters the loop with `x < 2 ^ 45` (the index is
masked to 48 bits and pre-shifted by 3), so the loop runs at most 15
times; running it with fuel 16 is exact. -/
def encodeLoop : Nat → Nat → Nat → Nat → Nat × Nat
  | 0, _, y, shift => (y, shift)
  | fuel + 1, x, y, shift =>
    if x = 0 then (y, shift)
    else encodeLoop fuel (x >>> 3) (y ||| ((8 ||| (x &&& 7)) <<< shift)) (shift + 4)

/-- `fn encode(index: usize) -> (u64, u8)`: encode lowest 48 bits of
`index` into base-8 continuation blocks, returning the packed blocks and
the encoded bit length. -/
def encode (index : Nat) : Nat × Nat :=
  let x := index &&& 0x0000FFFFFFFFFFFF
  encodeLoop 16 (x >>> 3) (x &&& 7) 4

/-- `fn block_len(x: u64) -> u8 { ((x & MASK_LEN) >> SHIFT_LEN) as u8 }` -/
def block_len (x : Nat) : Nat := (x &&& MASK_LEN) >>> 4

/-- The `while (x & HIGH) != 0` loop of `fn next_from_bits`.  The Rust
loop performs at most 16 iterations (each iteration shifts `x` left by 4
in `u64`, so after 16 of them `x = 0` and the guard fails); running it
with fuel 16 is therefore exact. -/
def nfbLoop : Nat → Nat → Nat → Nat → Nat × Nat
  | 0, _, y, c => (y, c)
  | fuel + 1, x, y, c =>
    if x &&& 0x8000000000000000 ≠ 0 then
      let x2 := (x <<< 4) % 2 ^ 64
      nfbLoop fuel x2 ((y <<< 3) ||| ((x2 &&& 0x7000000000000000) >>> 60)) (c + 1)
    else (y, c)

/-- `fn next_from_bits(mut x: u64) -> (usize, u8)`: read one index from
the highest blocks of `x`, returning it together with the number of
blocks consumed. -/
def next_from_bits (x : Nat) : Nat × Nat :=
  nfbLoop 16 x ((x &&& 0x7000000000000000) >>> 60) 1

theorem nfbLoop_c_le (fuel x y c : Nat) : c ≤ (nfbLoop fuel x y c).2 := by
  induction fuel generalizing x y c with
  | zero => exact Nat.le_refl c
  | succ n ih =>
    unfold nfbLoop
    by_cases h : x &&& 0x8000000000000000 ≠ 0
    · simp only [if_pos h]
      exact Nat.le_trans (Nat.le_succ c) (ih _ _ _)
    · simp only [if_neg h]
      exact Nat.le_refl c

theorem next_from_bits_blocks_pos (x : Nat) : 1 ≤ (next_from_bits x).2 :=
  nfbLoop_c_le 16 x _ 1

/-- The successive `next` calls of `BitsIter` (state: remaining block
count, word shifted so that the next block is at the top), collected
into a list.  Every step consumes at least one block from `len`, so
running with fuel `len` is exact. -/
def bitsIterGo : Nat → Nat → Nat → List Nat
  | 0, _, _ => []
  | fuel + 1, len, bits =>
    if len = 0 then []
    else
      let nb := next_from_bits bits
      nb.1 :: bitsIterGo fuel (len - nb.2) ((bits <<< (4 * nb.2)) % 2 ^ 64)

def bitsIterAux (len bits : Nat) : List Nat := bitsIterGo len len bits

theorem bitsIterGo_fuel : ∀ f1 f2 len bits, len ≤ f1 → len ≤ f2 →
    bitsIterGo f1 len bits = bitsIterGo f2 len bits := by
  intro f1
  induction f1 with
  | zero =>
    intro f2 len bits h1 h2
    have hlen : len = 0 := by omega
    subst hlen
    cases f2 with
    | zero => rfl
    | succ g => simp [bitsIterGo]
  | succ f ih =>
    intro f2 len bits h1 h2
    by_cases hlen : len = 0
    · subst hlen
      cases f2 with
      | zero => simp [bitsIterGo]
      | succ g => simp [bitsIterGo]
    · cases f2 with
      | zero => omega
      | succ g =>
        rw [bitsIterGo, bitsIterGo, if_neg hlen, if_neg hlen]
        have hpos := next_from_bits_blocks_pos bits
        show (next_from_bits bits).1 :: bitsIterGo f (len - (next_from_bits bits).2)
            ((bits <<< (4 * (next_from_bits bits).2)) % 2 ^ 64)
          = (next_from_bits bits).1 :: bitsIterGo g (len - (next_from_bits bits).2)
            ((bits <<< (4 * (next_from_bits bits).2)) % 2 ^ 64)
        rw [ih g _ _ (by omega) (by omega)]

theorem bitsIterAux_unfold (len bits : Nat) :
    bitsIterAux len bits =
      if len = 0 then []
      else
        (next_from_bits bits).1 ::
          bitsIterAux (len - (next_from_bits bits).2)
            ((bits <<< (4 * (next_from_bits bits).2)) % 2 ^ 64) := by
  by_cases hlen : len = 0
  · subst hlen
    rfl
  · rw [if_neg hlen]
    cases hl : len with
    | zero => exact absurd hl hlen
    | succ m =>
      have hpos := next_from_bits_blocks_pos bits
      show bitsIterGo (m + 1) (m + 1) bits = _
      rw [bitsIterGo, if_neg (by omega : ¬(m + 1 = 0))]
      show (next_from_bits bits).1 :: bitsIterGo m (m + 1 - (next_from_bits bits).2)
          ((bits <<< (4 * (next_from_bits bits).2)) % 2 ^ 64)
        = (next_from_bits bits).1 :: bitsIterAux (m + 1 - (next_from_bits bits).2)
          ((bits <<< (4 * (next_from_bits bits).2)) % 2 ^ 64)
      unfold bitsIterAux
      rw [bitsIterGo_fuel m (m + 1 - (next_from_bits bits).2)
        (m + 1 - (next_from_bits bits).2)
        ((bits <<< (4 * (next_from_bits bits).2)) % 2 ^ 64) (by omega) (by omega)]

/-- `BitsIter::new(x)` followed by collecting the iterator: decode the
path stored in an inline (`Variant::Int`) word. -/
def bitsToPath (x : Nat) : List Nat := bitsIterAux (block_len x) (x &&& MASK_BITS)

/-- The three variants of `IntOrPtr::get` for a `WidgetId`.  `intId x`
is `Variant::Int(x)` (inline bit-packed word, low bit set); `sliceId p`
is `Variant::Slice` with the heap array holding exactly the indices
`p`. -/
inductive WidgetId where
  | invalid : WidgetId
  | intId (x : Nat) : WidgetId
  | sliceId (path : List Nat) : WidgetId
deriving DecidableEq, Repr

/-- `WidgetId::ROOT` (`IntOrPtr::ROOT`, the integer `USE_BITS`). -/
def ROOT : WidgetId := .intId USE_BITS

/-- Binary length of a natural number:
`8 * size_of::<usize>() - index.leading_zeros()` for values below
`2 ^ 64`.  Each step halves `n`, so fuel `n` is exact. -/
def bitLenGo : Nat → Nat → Nat
  | 0, _ => 0
  | fuel + 1, n => if n = 0 then 0 else bitLenGo fuel (n / 2) + 1

def bitLen (n : Nat) : Nat := bitLenGo n n

theorem bitLenGo_fuel : ∀ f1 f2 n, n ≤ f1 → n ≤ f2 →
    bitLenGo f1 n = bitLenGo f2 n := by
  intro f1
  induction f1 with
  | zero =>
    intro f2 n h1 h2
    have hn : n = 0 := by omega
    subst hn
    cases f2 with
    | zero => rfl
    | succ g => simp [bitLenGo]
  | succ f ih =>
    intro f2 n h1 h2
    by_cases hn : n = 0
    · subst hn
      cases f2 with
      | zero => simp [bitLenGo]
      | succ g => simp [bitLenGo]
    · cases f2 with
      | zero => omega
      | succ g =>
        rw [bitLenGo, bitLenGo, if_neg hn, if_neg hn]
        have hdiv : n / 2 < n := Nat.div_lt_self (Nat.pos_of_ne_zero hn) (by norm_num)
        rw [ih g (n / 2) (by omega) (by omega)]

theorem bitLen_unfold (n : Nat) :
    bitLen n = if n = 0 then 0 else bitLen (n / 2) + 1 := by
  by_cases hn : n = 0
  · subst hn
    rfl
  · rw [if_neg hn]
    unfold bitLen
    cases hc : n with
    | zero => exact absurd hc hn
    | succ m =>
      rw [bitLenGo, if_neg (by omega : ¬(m + 1 = 0))]
      have hdiv : (m + 1) / 2 < m + 1 := Nat.div_lt_self (by omega) (by norm_num)
      rw [bitLenGo_fuel m ((m + 1) / 2) ((m + 1) / 2) (by omega) (by omega)]

theorem bitLen_le (n k : Nat) : bitLen n ≤ k ↔ n < 2 ^ k := by
  induction n using Nat.strong_induction_on generalizing k with
  | _ n ih =>
    rw [bitLen_unfold]
    split
    · rename_i hn
      subst hn
      simp [Nat.pos_pow_of_pos]
    · rename_i hn
      cases k with
      | zero =>
        constructor
        · omega
        · intro h
          simp only [Nat.pow_zero] at h
          omega
      | succ k =>
        have hdiv : n / 2 < n := Nat.div_lt_self (Nat.pos_of_ne_zero hn) (by norm_num)
        have hiff := ih (n / 2) hdiv k
        rw [Nat.pow_succ]
        constructor
        · intro h
          have h2 : n / 2 < 2 ^ k := hiff.mp (by omega)
          omega
        · intro h
          have h2 : n / 2 < 2 ^ k := by omega
          have := hiff.mpr h2
          omega

/-- `WidgetId::make_child`.  `none` models the panic on an invalid id.
`req_bits` is `(8 * size_of::<usize>() - index.leading_zeros()).max(1)`,
which for `index < 2 ^ 64` equals `max (bitLen index) 1`.  The `u64`
shift producing `rest` is truncating, hence the `% 2 ^ 64`. -/
def make_child : WidgetId → Nat → Option WidgetId
  | .invalid, _ => none
  | .intId self_x, index =>
    let bl := block_len self_x
    let avail_blocks := BLOCKS - bl
    let req_bits := max (bitLen index) 1
    if req_bits ≤ 3 * avail_blocks then
      let e := encode index
      let used_blocks := e.2 / 4
      let len := (bl + used_blocks) <<< 4
      let rest := (e.1 <<< (4 * avail_blocks - e.2 + 8)) % 2 ^ 64
      some (.intId ((((self_x &&& MASK_BITS) ||| rest) ||| len) ||| USE_BITS))
    else
      some (.sliceId (bitsToPath self_x ++ [index]))
  | .sliceId path, index => some (.sliceId (path ++ [index]))

/-- `WidgetId::iter_path` collected into a list; `none` models the panic
on an invalid id. -/
def iter_path : WidgetId → Option (List Nat)
  | .invalid => none
  | .intId x => some (bitsToPath x)
  | .sliceId path => some path

/-- `WidgetId::is_ancestor_of`. -/
def is_ancestor_of : WidgetId → WidgetId → Bool
  | .invalid, _ => false
  | _, .invalid => false
  | .sliceId _, .intId _ => false
  | .intId self_x, .intId child_x =>
    let self_blocks := block_len self_x
    let child_blocks := block_len child_x
    if self_blocks > child_blocks then false
    else
      let shift := 4 * (BLOCKS - self_blocks) + 8
      shift == 64 || self_x >>> shift == child_x >>> shift
  | .intId self_x, .sliceId child =>
    ((bitsToPath self_x).zip child).all fun ab => ab.1 == ab.2
  | .sliceId self_path, .sliceId child => self_path.isPrefixOf child

/-- `WidgetId::index_of_child`.  The `some`/`none` in the result is the
Rust `Option` return value (this function never panics). -/
def index_of_child : WidgetId → WidgetId → Option Nat
  | .invalid, _ => none
  | _, .invalid => none
  | .sliceId _, .intId _ => none
  | .intId self_x, .intId child_x =>
    let self_blocks := block_len self_x
    let child_blocks := block_len child_x
    if self_blocks ≥ child_blocks then none
    else
      let shift := 4 * (BLOCKS - self_blocks) + 8
      if shift ≠ 64 ∧ self_x >>> shift ≠ child_x >>> shift then none
      else
        let next_bits := ((child_x &&& MASK_BITS) <<< (4 * self_blocks)) % 2 ^ 64
        some (next_from_bits next_bits).1
  | .intId self_x, .sliceId child_path =>
    let sp := bitsToPath self_x
    if (sp.zip child_path).all (fun ab => ab.1 == ab.2) then
      (child_path.drop sp.length).head?
    else none
  | .sliceId self_path, .sliceId child_path =>
    if self_path.isPrefixOf child_path then
      (child_path.drop self_path.length).head?
    else none

/-- `impl PartialEq for WidgetId`; `none` models the
`panic!("WidgetId::eq: invalid id")`, the fall-through arm compares the
two `iter_path()` sequences. -/
def eqv : WidgetId → WidgetId → Option Bool
  | .invalid, _ => none
  | _, .invalid => none
  | .intId x, .intId y => some (decide (x = y))
  | .intId x, .sliceId q => some (decide (bitsToPath x = q))
  | .sliceId p, .intId y => some (decide (p = bitsToPath y))
  | .sliceId p, .sliceId q => some (decide (p = q))

/-- Lowercase hexadecimal digit character, as produced by Rust's `{:x}`
formatting. -/
def hexChar (n : Nat) : Char :=
  if n < 10 then Char.ofNat (48 + n) else Char.ofNat (87 + n)

/-- Hexadecimal digits of `n`, least significant first (empty for 0). -/
def hexDigitsGo : Nat → Nat → List Char
  | 0, _ => []
  | fuel + 1, n => if n = 0 then [] else hexChar (n % 16) :: hexDigitsGo fuel (n / 16)

def hexDigitsRev (n : Nat) : List Char := hexDigitsGo (n + 1) n

theorem hexDigitsGo_fuel : ∀ f1 f2 n, n < f1 → n < f2 →
    hexDigitsGo f1 n = hexDigitsGo f2 n := by
  intro f1
  induction f1 with
  | zero => omega
  | succ f ih =>
    intro f2 n h1 h2
    cases f2 with
    | zero => omega
    | succ g =>
      by_cases hn : n = 0
      · subst hn
        simp [hexDigitsGo]
      · rw [hexDigitsGo, hexDigitsGo, if_neg hn, if_neg hn]
        have hdiv : n / 16 < n := Nat.div_lt_self (Nat.pos_of_ne_zero hn) (by norm_num)
        rw [ih g (n / 16) (by omega) (by omega)]

theorem hexDigitsRev_unfold (n : Nat) :
    hexDigitsRev n = if n = 0 then []
      else hexChar (n % 16) :: hexDigitsRev (n / 16) := by
  by_cases hn : n = 0
  · subst hn
    rfl
  · rw [if_neg hn]
    unfold hexDigitsRev
    rw [hexDigitsGo, if_neg hn]
    have hdiv : n / 16 < n := Nat.div_lt_self (Nat.pos_of_ne_zero hn) (by norm_num)
    rw [hexDigitsGo_fuel n (n / 16 + 1) (n / 16) (by omega) (by omega)]

/-- Rust's `{:0>w$x}` format: lowercase hex, left-padded with zeros to
width `w` (never truncated). -/
def fmtHex (w n : Nat) : List Char :=
  let ds := if n = 0 then ['0'] else (hexDigitsRev n).reverse
  List.replicate (w - ds.length) '0' ++ ds

/-- `impl fmt::Display for WidgetId`, rendered to a string. -/
def display (w : WidgetId) : String :=
  match w with
  | .invalid => "#INVALID"
  | .intId x =>
    let len := block_len x
    if len = 0 then "#"
    else String.mk ('#' :: fmtHex len (x >>> (4 * (BLOCKS - len) + 8)))
  | .sliceId path =>
    String.mk ('#' ::
      (path.map fun index => fmtHex ((encode index).2 / 4) (encode index).1).flatten)

/-- `WidgetId::as_u64` / `IntOrPtr::as_u64` for the two non-pointer
representations: an inline word is its own bits, the Invalid sentinel is
the all-ones word.  (A `Variant::Slice` id's bits are its heap pointer
`addr ||| USE_PTR`; they are treated via `getVariant` below.) -/
def intAsU64 (x : Nat) : Nat := x

/-- `IntOrPtr::opt_from_u64`: `some none` for 0, `some (some n)` when
the low tag bits pass `assert!(v == 1 || v == 2)`, and `none` when that
assertion panics. -/
def optFromU64 (n : Nat) : Option (Option Nat) :=
  if n = 0 then some none
  else if n &&& 3 = 1 ∨ n &&& 3 = 2 then some (some n)
  else none

/-- `WidgetId::opt_to_u64` at the bit level: `None` maps to 0, `Some`
maps to the id's `as_u64` bits. -/
def optToU64 : Option Nat → Nat
  | none => 0
  | some bits => bits

/-- `IntOrPtr::get` (with `get_ptr`) as a function of the stored 64-bit
word: a clear low bit is a pointer (masked with `MASK_PTR`) into the
heap, the all-ones word is `Invalid`, anything else is an inline
integer.  `heap` gives the index array stored at each address. -/
def getVariant (heap : Nat → List Nat) (bits : Nat) : WidgetId :=
  if bits &&& USE_BITS = 0 then .sliceId (heap (bits &&& MASK_PTR))
  else if bits = INVALID then .invalid
  else .intId bits

/-- Operations performed on the reference count of one out-of-line heap
block. -/
inductive RcOp where
  | clone : RcOp
  | drop : RcOp
deriving DecidableEq, Repr

/-- State of one out-of-line heap block: still allocated with the given
reference count, or deallocated. -/
inductive RcState where
  | live (refCount : Nat) : RcState
  | freed : RcState
deriving DecidableEq, Repr

/-- One `Clone::clone` / `Drop::drop` of `IntOrPtr` acting on the shared
block's reference count.  `none` is the `std::process::abort()` in
`clone` (count 0 or `usize::MAX`) or a use of the block after it was
deallocated. -/
def rcStep : RcState → RcOp → Option RcState
  | .live c, .clone =>
    if c = 0 ∨ c = 2 ^ 64 - 1 then none else some (.live (c + 1))
  | .live c, .drop =>
    if c > 1 then some (.live (c - 1)) else some .freed
  | .freed, _ => none

/-- Run a sequence of clone/drop operations on a block. -/
def rcRun (s : RcState) (ops : List RcOp) : Option RcState :=
  ops.foldlM rcStep s

/-- The `Hasher` write calls a `WidgetId` performs in
`impl Hash for WidgetId`: an inline word performs one `write_u64`, a
slice performs the standard `[usize]` hash (a length prefix followed by
one `write_usize` per element).  Two values hash identically for every
hasher exactly when their token streams are equal. -/
inductive HashToken where
  | lenPrefix (n : Nat) : HashToken
  | u64 (x : Nat) : HashToken
  | usizeVal (x : Nat) : HashToken
deriving DecidableEq, Repr

/-- `impl Hash for WidgetId` as the stream of hasher writes. -/
def hashStream : WidgetId → List HashToken
  | .invalid => []
  | .intId x => [.u64 x]
  | .sliceId path => .lenPrefix path.length :: path.map .usizeVal

/-- Building an identifier from the root by one `make_child` per
element, as in `let mut id = ROOT; for i in s { id = id.make_child(i) }`. -/
def fromPath (s : List Nat) : Option WidgetId :=
  s.foldlM make_child ROOT

/-! ### Specification-level view of the block encoding

`encCont x` is the list of continuation blocks (flag bit 8 set, base-8
digits most significant first) that `encode` produces for the part of an
index above its low 3 bits; `encBlocks i` is the full block string of
one index, `blocksOf p` the concatenated block string of a path.
`blockVal` reads a block list as a base-16 number, `wordOf` places it at
the top of a 64-bit word, and `bitsOfPath` is the canonical inline word
(blocks at the top, block count in bits 4..7, tag bit set). -/

def encContGo : Nat → Nat → List Nat
  | 0, _ => []
  | fuel + 1, x => if x = 0 then [] else encContGo fuel (x / 8) ++ [8 + x % 8]

def encCont (x : Nat) : List Nat := encContGo (x + 1) x

theorem encContGo_fuel : ∀ f1 f2 x, x < f1 → x < f2 →
    encContGo f1 x = encContGo f2 x := by
  intro f1
  induction f1 with
  | zero => omega
  | succ f ih =>
    intro f2 x h1 h2
    cases f2 with
    | zero => omega
    | succ g =>
      by_cases hx : x = 0
      · subst hx
        simp [encContGo]
      · rw [encContGo, encContGo, if_neg hx, if_neg hx]
        have hdiv : x / 8 < x := Nat.div_lt_self (Nat.pos_of_ne_zero hx) (by norm_num)
        rw [ih g (x / 8) (by omega) (by omega)]

theorem encCont_unfold (x : Nat) :
    encCont x = if x = 0 then [] else encCont (x / 8) ++ [8 + x % 8] := by
  by_cases hx : x = 0
  · subst hx
    rfl
  · rw [if_neg hx]
    unfold encCont
    rw [encContGo, if_neg hx]
    have hdiv : x / 8 < x := Nat.div_lt_self (Nat.pos_of_ne_zero hx) (by norm_num)
    rw [encContGo_fuel x (x / 8 + 1) (x / 8) (by omega) (by omega)]

def encBlocks (i : Nat) : List Nat := encCont (i / 8) ++ [i % 8]

def blockVal (l : List Nat) : Nat := l.foldl (fun a b => 16 * a + b) 0

def blocksOf (p : List Nat) : List Nat := (p.map encBlocks).flatten

def wordOf (l : List Nat) : Nat := blockVal l * 2 ^ (64 - 4 * l.length)

def bitsOfPath (p : List Nat) : Nat :=
  wordOf (blocksOf p) + (blocksOf p).length * 16 + 1

/-- The canonical result of building a path with `make_child`: inline
while the total block count fits in the 14-block budget, out-of-line
otherwise. -/
def canonId (p : List Nat) : WidgetId :=
  if (blocksOf p).length ≤ 14 then .intId (bitsOfPath p) else .sliceId p

/-! ### Bit toolkit -/

theorem or_mul_pow (a b k : Nat) : (a ||| b) * 2 ^ k = a * 2 ^ k ||| b * 2 ^ k := by
  rw [← Nat.shiftLeft_eq, ← Nat.shiftLeft_eq, ← Nat.shiftLeft_eq]
  apply Nat.eq_of_testBit_eq
  intro j
  simp [Nat.testBit_or, Nat.testBit_shiftLeft, Bool.and_or_distrib_left]

theorem and_mask (x j k : Nat) :
    x &&& (2 ^ j - 1) * 2 ^ k = x / 2 ^ k % 2 ^ j * 2 ^ k := by
  apply Nat.eq_of_testBit_eq
  intro i
  rw [← Nat.shiftLeft_eq ((2 : Nat) ^ j - 1) k, ← Nat.shiftLeft_eq, ← Nat.shiftRight_eq_div_pow]
  simp only [Nat.testBit_and, Nat.testBit_shiftLeft, Nat.testBit_two_pow_sub_one,
    Nat.testBit_mod_two_pow, Nat.testBit_shiftRight]
  by_cases h : k ≤ i
  · have : k + (i - k) = i := by omega
    simp [h, this, Bool.and_comm]
  · simp [h]

theorem and_one_eq_mod (x : Nat) : x &&& 1 = x % 2 := by
  have h := Nat.and_pow_two_sub_one_eq_mod x 1
  simpa using h

theorem and_seven_eq_mod (x : Nat) : x &&& 7 = x % 8 := by
  have := Nat.and_pow_two_sub_one_eq_mod x 3
  norm_num at this
  exact this

theorem and_three_eq_mod (x : Nat) : x &&& 3 = x % 4 := by
  have := Nat.and_pow_two_sub_one_eq_mod x 2
  norm_num at this
  exact this

theorem or_small_eq_add {a k b : Nat} (h : b < 2 ^ k) :
    a * 2 ^ k ||| b = a * 2 ^ k + b := by
  rw [Nat.mul_comm a]
  exact (Nat.mul_add_lt_is_or h a).symm

/-! ### Facts about the block strings -/

theorem encCont_mem {x b : Nat} (hb : b ∈ encCont x) : 8 ≤ b ∧ b < 16 := by
  induction x using Nat.strong_induction_on with
  | _ x ih =>
    rw [encCont_unfold] at hb
    split at hb
    · simp at hb
    · rcases List.mem_append.mp hb with h1 | h1
      · exact ih (x / 8)
          (Nat.div_lt_self (Nat.pos_of_ne_zero (by assumption)) (by norm_num)) h1
      · simp only [List.mem_singleton] at h1
        subst h1
        have := Nat.mod_lt x (y := 8) (by norm_num)
        omega

theorem encBlocks_mem {i b : Nat} (hb : b ∈ encBlocks i) : b < 16 := by
  rcases List.mem_append.mp hb with h1 | h1
  · exact (encCont_mem h1).2
  · simp only [List.mem_singleton] at h1
    subst h1
    have := Nat.mod_lt i (y := 8) (by norm_num)
    omega

theorem encBlocks_ne_nil (i : Nat) : encBlocks i ≠ [] := by
  intro h
  exact absurd (congrArg List.length h) (by simp [encBlocks])

theorem encCont_length_le (x k : Nat) : (encCont x).length ≤ k ↔ x < 8 ^ k := by
  induction x using Nat.strong_induction_on generalizing k with
  | _ x ih =>
    rw [encCont_unfold]
    split
    · subst x
      simp [Nat.pos_pow_of_pos, Nat.pow_pos]
    · rename_i hx
      cases k with
      | zero =>
        simp only [List.length_append, List.length_singleton, Nat.pow_zero]
        omega
      | succ k =>
        have hlt : x / 8 < x := Nat.div_lt_self (Nat.pos_of_ne_zero hx) (by norm_num)
        have hiff := ih (x / 8) hlt k
        simp only [List.length_append, List.length_singleton]
        rw [Nat.pow_succ]
        constructor
        · intro h
          have h8 : x / 8 < 8 ^ k := hiff.mp (by omega)
          omega
        · intro h
          have h8 : x / 8 < 8 ^ k := by omega
          have := hiff.mpr h8
          omega

theorem encBlocks_length_le (i k : Nat) :
    (encBlocks i).length ≤ k ↔ 1 ≤ k ∧ i < 8 ^ k := by
  unfold encBlocks
  simp only [List.length_append, List.length_singleton]
  cases k with
  | zero => simp
  | succ k =>
    have hiff := encCont_length_le (i / 8) k
    rw [Nat.pow_succ]
    constructor
    · intro h
      refine ⟨by omega, ?_⟩
      have h8 : i / 8 < 8 ^ k := hiff.mp (by omega)
      omega
    · rintro ⟨-, h⟩
      have h8 : i / 8 < 8 ^ k := by omega
      have := hiff.mpr h8
      omega

theorem blockVal_foldl_init (l : List Nat) (a : Nat) :
    l.foldl (fun a b => 16 * a + b) a = a * 16 ^ l.length + blockVal l := by
  induction l generalizing a with
  | nil => simp [blockVal]
  | cons b t ih =>
    have hbt : blockVal (b :: t) = b * 16 ^ t.length + blockVal t := by
      show (b :: t).foldl (fun a b => 16 * a + b) 0 = _
      rw [List.foldl_cons, ih]
      ring_nf
    rw [List.foldl_cons, ih, hbt]
    simp only [List.length_cons]
    ring

theorem blockVal_cons (b : Nat) (t : List Nat) :
    blockVal (b :: t) = b * 16 ^ t.length + blockVal t := by
  show (b :: t).foldl (fun a b => 16 * a + b) 0 = _
  rw [List.foldl_cons, blockVal_foldl_init]
  ring_nf

theorem blockVal_append (l m : List Nat) :
    blockVal (l ++ m) = blockVal l * 16 ^ m.length + blockVal m := by
  unfold blockVal
  rw [List.foldl_append, blockVal_foldl_init]
  rfl

theorem blockVal_singleton (b : Nat) : blockVal [b] = b := by
  simp [blockVal]

theorem blockVal_lt {l : List Nat} (h : ∀ b ∈ l, b < 16) :
    blockVal l < 16 ^ l.length := by
  induction l with
  | nil => simp [blockVal]
  | cons b t ih =>
    rw [blockVal_cons]
    have hb : b < 16 := h b (List.mem_cons_self b t)
    have ht := ih (fun x hx => h x (List.mem_cons_of_mem b hx))
    simp only [List.length_cons, Nat.pow_succ]
    calc b * 16 ^ t.length + blockVal t
        < b * 16 ^ t.length + 16 ^ t.length := by omega
      _ = (b + 1) * 16 ^ t.length := by ring
      _ ≤ 16 * 16 ^ t.length := by
          apply Nat.mul_le_mul_right
          omega
      _ = 16 ^ t.length * 16 := by ring

theorem digitFold (x a : Nat) :
    (encCont x).foldl (fun a b => 8 * a + b % 8) a =
      a * 8 ^ (encCont x).length + x := by
  induction x using Nat.strong_induction_on generalizing a with
  | _ x ih =>
    rw [encCont_unfold]
    split
    · subst x
      simp
    · rename_i hx
      have hlt : x / 8 < x := Nat.div_lt_self (Nat.pos_of_ne_zero hx) (by norm_num)
      rw [List.foldl_append, ih (x / 8) hlt a]
      simp only [List.foldl_cons, List.foldl_nil, List.length_append,
        List.length_singleton]
      have h8 : (8 + x % 8) % 8 = x % 8 := by omega
      rw [h8, Nat.pow_succ]
      have := Nat.div_add_mod x 8
      ring_nf
      omega

/-! ### `encode` computes the canonical block string -/

theorem encodeLoop_eq (fuel : Nat) :
    ∀ x y s, x < 8 ^ fuel → y < 2 ^ s →
    encodeLoop fuel x y s =
      (y + blockVal (encCont x) * 2 ^ s, s + 4 * (encCont x).length) := by
  induction fuel with
  | zero =>
    intro x y s hx hy
    have hx0 : x = 0 := by
      simp only [Nat.pow_zero] at hx
      omega
    subst hx0
    show (y, s) = _
    rw [encCont_unfold]
    simp [blockVal]
  | succ fuel ih =>
    intro x y s hx hy
    rw [encodeLoop, encCont_unfold]
    by_cases hx0 : x = 0
    · rw [if_pos hx0, if_pos hx0]
      simp [blockVal]
    · rw [if_neg hx0, if_neg hx0]
      have hs3 : x >>> 3 = x / 8 := by
        rw [Nat.shiftRight_eq_div_pow]
      have hand : x &&& 7 = x % 8 := and_seven_eq_mod x
      have hor8 : (8 : Nat) ||| x % 8 = 8 + x % 8 := by
        have h := or_small_eq_add (a := 1) (k := 3) (b := x % 8) (by omega)
        norm_num at h
        omega
      have hshift : (8 + x % 8) <<< s = (8 + x % 8) * 2 ^ s := Nat.shiftLeft_eq _ _
      have hory : y ||| (8 + x % 8) * 2 ^ s = (8 + x % 8) * 2 ^ s + y := by
        rw [Nat.lor_comm]
        exact or_small_eq_add hy
      have hy2 : (8 + x % 8) * 2 ^ s + y < 2 ^ (s + 4) := by
        have hm : x % 8 < 8 := Nat.mod_lt x (by norm_num)
        have hlt : (8 + x % 8) * 2 ^ s + y < 16 * 2 ^ s := by nlinarith
        calc (8 + x % 8) * 2 ^ s + y < 16 * 2 ^ s := hlt
          _ = 2 ^ (s + 4) := by rw [Nat.pow_add]; ring
      have hx8 : x / 8 < 8 ^ fuel := by
        rw [Nat.pow_succ] at hx
        apply Nat.div_lt_of_lt_mul
        omega
      rw [hand, hor8, hs3, hshift, hory, ih (x / 8) _ _ hx8 hy2]
      rw [blockVal_append, blockVal_singleton]
      simp only [List.length_append, List.length_singleton, Prod.mk.injEq]
      refine ⟨?_, by omega⟩
      rw [Nat.pow_add]
      ring

theorem encode_eq (i : Nat) :
    encode i =
      (blockVal (encBlocks (i % 2 ^ 48)), 4 * (encBlocks (i % 2 ^ 48)).length) := by
  have hmask : i &&& 0x0000FFFFFFFFFFFF = i % 2 ^ 48 := by
    have h := Nat.and_pow_two_sub_one_eq_mod i 48
    norm_num at h ⊢
    exact h
  show encodeLoop 16 ((i &&& 0x0000FFFFFFFFFFFF) >>> 3)
    ((i &&& 0x0000FFFFFFFFFFFF) &&& 7) 4 = _
  rw [hmask]
  set x := i % 2 ^ 48 with hx
  have hs3 : x >>> 3 = x / 8 := by rw [Nat.shiftRight_eq_div_pow]
  have hand : x &&& 7 = x % 8 := and_seven_eq_mod x
  have hy : x % 8 < 2 ^ 4 := by
    have := Nat.mod_lt x (y := 8) (by norm_num)
    omega
  have hfuel : x / 8 < 8 ^ 16 := by
    have hxlt : x < 2 ^ 48 := by
      rw [hx]
      exact Nat.mod_lt i (by positivity)
    have h816 : (8 : Nat) ^ 16 = 2 ^ 48 := by norm_num
    omega
  rw [hs3, hand, encodeLoop_eq 16 _ _ _ hfuel hy]
  unfold encBlocks
  rw [blockVal_append, blockVal_singleton]
  simp only [List.length_append, List.length_singleton, Prod.mk.injEq]
  refine ⟨?_, by omega⟩
  norm_num
  ring

/-! ### Reading blocks back out of a word -/

theorem wordOf_nil : wordOf [] = 0 := by simp [wordOf, blockVal]

theorem wordOf_lt {l : List Nat} (hw : ∀ b ∈ l, b < 16) (hl : l.length ≤ 16) :
    wordOf l < 2 ^ 64 := by
  unfold wordOf
  have hv := blockVal_lt hw
  have h16 : (16 : Nat) ^ l.length = 2 ^ (4 * l.length) := by
    rw [Nat.pow_mul]
  calc blockVal l * 2 ^ (64 - 4 * l.length)
      < 16 ^ l.length * 2 ^ (64 - 4 * l.length) := by
        apply Nat.mul_lt_mul_of_lt_of_le hv (Nat.le_refl _)
        exact Nat.pos_pow_of_pos _ (by norm_num)
    _ = 2 ^ (4 * l.length) * 2 ^ (64 - 4 * l.length) := by rw [h16]
    _ = 2 ^ 64 := by
        rw [← Nat.pow_add]
        congr 1
        omega

theorem wordOf_cons {b : Nat} {l : List Nat} (hb : b < 16)
    (hw : ∀ x ∈ l, x < 16) (hl : l.length ≤ 15) :
    wordOf (b :: l) = b * 2 ^ 60 + blockVal l * 2 ^ (60 - 4 * l.length) := by
  unfold wordOf
  rw [blockVal_cons]
  simp only [List.length_cons]
  have h1 : 64 - 4 * (l.length + 1) = 60 - 4 * l.length := by omega
  rw [h1, Nat.add_mul]
  congr 1
  rw [Nat.mul_assoc]
  congr 1
  rw [show (16 : Nat) ^ l.length = 2 ^ (4 * l.length) from by rw [Nat.pow_mul]]
  rw [← Nat.pow_add]
  congr 1
  omega

theorem blockVal_tail_lt {l : List Nat} (hw : ∀ x ∈ l, x < 16) (hl : l.length ≤ 15) :
    blockVal l * 2 ^ (60 - 4 * l.length) < 2 ^ 60 := by
  have hv := blockVal_lt hw
  have h16 : (16 : Nat) ^ l.length = 2 ^ (4 * l.length) := by rw [Nat.pow_mul]
  calc blockVal l * 2 ^ (60 - 4 * l.length)
      < 2 ^ (4 * l.length) * 2 ^ (60 - 4 * l.length) := by
        apply Nat.mul_lt_mul_of_lt_of_le (h16 ▸ hv) (Nat.le_refl _)
        exact Nat.pos_pow_of_pos _ (by norm_num)
    _ = 2 ^ 60 := by
        rw [← Nat.pow_add]
        congr 1
        omega

theorem top_payload {b r : Nat} (hb : b < 16) (hr : r < 2 ^ 60) :
    ((b * 2 ^ 60 + r) &&& 0x7000000000000000) >>> 60 = b % 8 := by
  have hm : (0x7000000000000000 : Nat) = (2 ^ 3 - 1) * 2 ^ 60 := by norm_num
  rw [hm, and_mask, Nat.shiftRight_eq_div_pow]
  have hdiv : (b * 2 ^ 60 + r) / 2 ^ 60 = b := by omega
  rw [hdiv, Nat.mul_div_cancel _ (by positivity)]
  norm_num

theorem top_flag {b r : Nat} (hb : b < 16) (hr : r < 2 ^ 60) :
    ((b * 2 ^ 60 + r) &&& 0x8000000000000000 ≠ 0) ↔ 8 ≤ b := by
  have hm : (0x8000000000000000 : Nat) = (2 ^ 1 - 1) * 2 ^ 63 := by norm_num
  rw [hm, and_mask]
  have hdiv : (b * 2 ^ 60 + r) / 2 ^ 63 = b / 8 := by omega
  rw [hdiv]
  omega

theorem shift4_wordOf {b : Nat} {l : List Nat} (hb : b < 16)
    (hw : ∀ x ∈ l, x < 16) (hl : l.length ≤ 15) :
    (wordOf (b :: l) <<< 4) % 2 ^ 64 = wordOf l := by
  rw [Nat.shiftLeft_eq, wordOf_cons hb hw hl]
  have hsplit : (b * 2 ^ 60 + blockVal l * 2 ^ (60 - 4 * l.length)) * 2 ^ 4
      = wordOf l + b * 2 ^ 64 := by
    unfold wordOf
    rw [Nat.add_mul, Nat.add_comm]
    congr 1
    · rw [Nat.mul_assoc, ← Nat.pow_add]
      congr 2
      omega
    · rw [Nat.mul_assoc, ← Nat.pow_add]
  rw [hsplit, Nat.add_mul_mod_self_right]
  exact Nat.mod_eq_of_lt (wordOf_lt hw (by omega))

theorem encCont_eq_nil {x : Nat} : encCont x = [] ↔ x = 0 := by
  have h := encCont_length_le x 0
  simp only [Nat.pow_zero, Nat.lt_one_iff] at h
  constructor
  · intro hx
    exact h.mp (by rw [hx]; rfl)
  · intro hx
    subst hx
    rfl

theorem nfbLoop_stop {t : Nat} {ts : List Nat} (ht : t < 8)
    (hts : ∀ b ∈ ts, b < 16) (hlen : ts.length ≤ 15) (fuel y cnt : Nat) :
    nfbLoop fuel (wordOf (t :: ts)) y cnt = (y, cnt) := by
  cases fuel with
  | zero => rfl
  | succ f =>
    simp only [nfbLoop]
    rw [if_neg]
    intro hflag
    have := (top_flag (b := t) (by omega) (blockVal_tail_lt hts hlen)).mp
      (by rw [wordOf_cons (by omega) hts hlen] at hflag; exact hflag)
    omega

theorem nfbLoop_run (cs : List Nat) :
    ∀ (b0 t : Nat) (ts : List Nat) (y cnt fuel : Nat),
    (∀ b ∈ cs, 8 ≤ b ∧ b < 16) → t < 8 → (∀ b ∈ ts, b < 16) →
    8 ≤ b0 → b0 < 16 →
    cs.length + ts.length + 2 ≤ 16 →
    cs.length + 1 ≤ fuel →
    nfbLoop fuel (wordOf (b0 :: (cs ++ t :: ts))) y cnt =
      ((cs ++ [t]).foldl (fun a b => 8 * a + b % 8) y, cnt + cs.length + 1) := by
  induction cs with
  | nil =>
    intro b0 t ts y cnt fuel hcs ht hts hb0 hb0b hbud hfuel
    simp only [List.nil_append, List.length_nil] at hbud hfuel ⊢
    cases fuel with
    | zero => omega
    | succ f =>
      have hrest : ∀ b ∈ t :: ts, b < 16 := by
        intro b hb
        rcases List.mem_cons.mp hb with h | h
        · omega
        · exact hts b h
      have hlen : (t :: ts).length ≤ 15 := by
        simp only [List.length_cons]
        omega
      simp only [nfbLoop]
      rw [if_pos]
      · rw [shift4_wordOf hb0b hrest hlen]
        rw [wordOf_cons (by omega) hts (by omega)]
        rw [top_payload (by omega) (blockVal_tail_lt hts (by omega))]
        rw [← wordOf_cons (by omega) hts (by omega)]
        have hy : (y <<< 3) ||| t % 8 = 8 * y + t % 8 := by
          rw [Nat.shiftLeft_eq, or_small_eq_add (a := y) (k := 3) (b := t % 8) (by omega)]
          ring
        rw [nfbLoop_stop ht hts (by omega), hy, Prod.mk.injEq]
        refine ⟨?_, by omega⟩
        simp only [List.foldl_cons, List.foldl_nil]
      · rw [wordOf_cons hb0b hrest hlen]
        exact (top_flag hb0b (blockVal_tail_lt hrest hlen)).mpr hb0
  | cons c0 cs ih =>
    intro b0 t ts y cnt fuel hcs ht hts hb0 hb0b hbud hfuel
    simp only [List.length_cons] at hbud hfuel
    cases fuel with
    | zero => omega
    | succ f =>
      have hc0 : 8 ≤ c0 ∧ c0 < 16 := hcs c0 (List.mem_cons_self c0 cs)
      have hcs2 : ∀ b ∈ cs, 8 ≤ b ∧ b < 16 := fun b hb =>
        hcs b (List.mem_cons_of_mem c0 hb)
      have hrest2 : ∀ b ∈ cs ++ t :: ts, b < 16 := by
        intro b hb
        rcases List.mem_append.mp hb with h | h
        · exact (hcs2 b h).2
        · rcases List.mem_cons.mp h with h | h
          · omega
          · exact hts b h
      have hrest : ∀ b ∈ c0 :: (cs ++ t :: ts), b < 16 := by
        intro b hb
        rcases List.mem_cons.mp hb with h | h
        · omega
        · exact hrest2 b h
      have hlen : (c0 :: (cs ++ t :: ts)).length ≤ 15 := by
        simp only [List.length_cons, List.length_append]
        omega
      have hlen2 : (cs ++ t :: ts).length ≤ 15 := by
        simp only [List.length_cons, List.length_append]
        omega
      simp only [nfbLoop, List.cons_append]
      rw [if_pos]
      · rw [shift4_wordOf hb0b hrest hlen]
        rw [wordOf_cons hc0.2 hrest2 hlen2]
        rw [top_payload hc0.2 (blockVal_tail_lt hrest2 hlen2)]
        rw [← wordOf_cons hc0.2 hrest2 hlen2]
        rw [ih c0 t ts _ _ f hcs2 ht hts hc0.1 hc0.2 (by omega) (by omega)]
        have hy : (y <<< 3) ||| c0 % 8 = 8 * y + c0 % 8 := by
          rw [Nat.shiftLeft_eq, or_small_eq_add (a := y) (k := 3) (b := c0 % 8) (by omega)]
          ring
        rw [hy, Prod.mk.injEq]
        refine ⟨?_, by simp only [List.length_cons]; omega⟩
        simp only [List.foldl_cons]
      · rw [wordOf_cons hb0b hrest hlen]
        exact (top_flag hb0b (blockVal_tail_lt hrest hlen)).mpr hb0

theorem next_from_bits_enc (i : Nat) (ts : List Nat)
    (hts : ∀ b ∈ ts, b < 16)
    (hlen : (encBlocks i).length + ts.length ≤ 16) :
    next_from_bits (wordOf (encBlocks i ++ ts)) = (i, (encBlocks i).length) := by
  unfold next_from_bits
  by_cases hi : i < 8
  · have h8 : i / 8 = 0 := Nat.div_eq_of_lt hi
    have hnil : encCont (i / 8) = [] := encCont_eq_nil.mpr h8
    have hmod : i % 8 = i := Nat.mod_eq_of_lt hi
    have heb : encBlocks i = [i] := by
      unfold encBlocks
      rw [hnil, hmod, List.nil_append]
    rw [heb] at hlen ⊢
    simp only [List.length_singleton] at hlen ⊢
    rw [List.singleton_append]
    rw [wordOf_cons (by omega) hts (by omega)]
    rw [top_payload (by omega) (blockVal_tail_lt hts (by omega))]
    rw [← wordOf_cons (by omega) hts (by omega)]
    rw [nfbLoop_stop hi hts (by omega), hmod]
  · have h8 : i / 8 ≠ 0 := by omega
    have hne : encCont (i / 8) ≠ [] := fun h => h8 (encCont_eq_nil.mp h)
    obtain ⟨b0, cs, hcons⟩ := List.exists_cons_of_ne_nil hne
    have heb : encBlocks i = b0 :: (cs ++ [i % 8]) := by
      unfold encBlocks
      rw [hcons, List.cons_append]
    have hmem : ∀ b ∈ b0 :: cs, 8 ≤ b ∧ b < 16 := by
      intro b hb
      apply encCont_mem (x := i / 8)
      rw [hcons]
      exact hb
    have hb0 := hmem b0 (List.mem_cons_self b0 cs)
    have hcs : ∀ b ∈ cs, 8 ≤ b ∧ b < 16 := fun b hb =>
      hmem b (List.mem_cons_of_mem b0 hb)
    have hlen2 : (encBlocks i).length = cs.length + 2 := by
      rw [heb]
      simp only [List.length_cons, List.length_append, List.length_singleton,
        List.length_nil]
    have hword : encBlocks i ++ ts = b0 :: (cs ++ i % 8 :: ts) := by
      rw [heb]
      simp only [List.cons_append, List.append_assoc, List.singleton_append,
        List.nil_append]
    rw [hword]
    have hrest : ∀ b ∈ cs ++ i % 8 :: ts, b < 16 := by
      intro b hb
      rcases List.mem_append.mp hb with h | h
      · exact (hcs b h).2
      · rcases List.mem_cons.mp h with h | h
        · have := Nat.mod_lt i (y := 8) (by norm_num)
          omega
        · exact hts b h
    have hlen3 : (cs ++ i % 8 :: ts).length ≤ 15 := by
      simp only [List.length_append, List.length_cons]
      omega
    rw [wordOf_cons hb0.2 hrest hlen3]
    rw [top_payload hb0.2 (blockVal_tail_lt hrest hlen3)]
    rw [← wordOf_cons hb0.2 hrest hlen3]
    rw [nfbLoop_run cs b0 (i % 8) ts _ _ 16 hcs
      (Nat.mod_lt i (by norm_num)) hts hb0.1 hb0.2 (by omega) (by omega)]
    have hfold : (cs ++ [i % 8]).foldl (fun a b => 8 * a + b % 8) (b0 % 8) = i := by
      have h1 : (cs ++ [i % 8]).foldl (fun a b => 8 * a + b % 8) (b0 % 8)
          = (b0 :: (cs ++ [i % 8])).foldl (fun a b => 8 * a + b % 8) 0 := by
        simp only [List.foldl_cons]
        norm_num
      rw [h1, show b0 :: (cs ++ [i % 8]) = (b0 :: cs) ++ [i % 8] from rfl, ← hcons]
      rw [List.foldl_append, digitFold]
      simp only [List.foldl_cons, List.foldl_nil]
      omega
    rw [hfold, hlen2, Prod.mk.injEq]
    exact ⟨rfl, by omega⟩

theorem shift_mod_compose (x k : Nat) :
    (((x <<< 4) % 2 ^ 64) <<< k) % 2 ^ 64 = (x <<< (4 + k)) % 2 ^ 64 := by
  simp only [Nat.shiftLeft_eq, Nat.pow_add]
  rw [Nat.mod_mul_mod, Nat.mul_assoc]

theorem shift_wordOf_append (bs : List Nat) :
    ∀ l, (∀ b ∈ bs, b < 16) → (∀ b ∈ l, b < 16) →
    bs.length + l.length ≤ 16 →
    (wordOf (bs ++ l) <<< (4 * bs.length)) % 2 ^ 64 = wordOf l := by
  induction bs with
  | nil =>
    intro l _ hl hlen
    simp only [List.nil_append, List.length_nil, Nat.mul_zero, Nat.shiftLeft_zero]
    exact Nat.mod_eq_of_lt (wordOf_lt hl (by omega))
  | cons b bs ih =>
    intro l hbs hl hlen
    simp only [List.length_cons, List.length_append] at hlen ⊢
    have hb : b < 16 := hbs b (List.mem_cons_self b bs)
    have hbs2 : ∀ x ∈ bs, x < 16 := fun x hx => hbs x (List.mem_cons_of_mem b hx)
    have hrest : ∀ x ∈ bs ++ l, x < 16 := by
      intro x hx
      rcases List.mem_append.mp hx with h | h
      · exact hbs2 x h
      · exact hl x h
    have hlenr : (bs ++ l).length ≤ 15 := by
      simp only [List.length_append]
      omega
    have hmul : 4 * (bs.length + 1) = 4 + 4 * bs.length := by omega
    rw [List.cons_append, hmul, ← shift_mod_compose]
    rw [shift4_wordOf hb hrest hlenr]
    exact ih l hbs2 hl (by omega)

theorem blocksOf_nil : blocksOf [] = [] := rfl

theorem blocksOf_cons (i : Nat) (p : List Nat) :
    blocksOf (i :: p) = encBlocks i ++ blocksOf p := by
  simp [blocksOf]

theorem blocksOf_append (p q : List Nat) :
    blocksOf (p ++ q) = blocksOf p ++ blocksOf q := by
  simp [blocksOf]

theorem blocksOf_mem {p : List Nat} {b : Nat} (hb : b ∈ blocksOf p) : b < 16 := by
  unfold blocksOf at hb
  rw [List.mem_flatten] at hb
  obtain ⟨l, hl, hbl⟩ := hb
  rw [List.mem_map] at hl
  obtain ⟨i, _, hi⟩ := hl
  exact encBlocks_mem (hi ▸ hbl)

theorem bitsIterAux_zero (bits : Nat) : bitsIterAux 0 bits = [] := rfl

theorem bitsIter_decomp (p : List Nat) :
    ∀ ts, (∀ b ∈ ts, b < 16) →
    (blocksOf p).length + ts.length ≤ 14 →
    bitsIterAux ((blocksOf p).length + ts.length) (wordOf (blocksOf p ++ ts)) =
      p ++ bitsIterAux ts.length (wordOf ts) := by
  induction p with
  | nil =>
    intro ts _ _
    simp [blocksOf_nil]
  | cons i p ih =>
    intro ts hts hlen
    rw [blocksOf_cons] at hlen ⊢
    simp only [List.length_append] at hlen ⊢
    have hne : (encBlocks i).length ≠ 0 := by
      intro h
      exact encBlocks_ne_nil i (List.length_eq_zero.mp h)
    have hmem : ∀ b ∈ blocksOf p ++ ts, b < 16 := by
      intro b hb
      rcases List.mem_append.mp hb with h | h
      · exact blocksOf_mem h
      · exact hts b h
    rw [List.append_assoc, bitsIterAux_unfold, if_neg (by omega)]
    rw [next_from_bits_enc i (blocksOf p ++ ts) hmem
      (by simp only [List.length_append]; omega)]
    simp only []
    have hsub : (encBlocks i).length + (blocksOf p).length + ts.length
        - (encBlocks i).length = (blocksOf p).length + ts.length := by omega
    rw [hsub]
    have hshift : (wordOf (encBlocks i ++ (blocksOf p ++ ts))
        <<< (4 * (encBlocks i).length)) % 2 ^ 64 = wordOf (blocksOf p ++ ts) := by
      apply shift_wordOf_append (encBlocks i) (blocksOf p ++ ts)
        (fun b hb => encBlocks_mem hb) hmem
      simp only [List.length_append]
      omega
    rw [hshift, ih ts hts (by omega)]
    rfl

/-! ### The canonical inline word -/

theorem wordOf_blocksOf_dvd {p : List Nat} (h : (blocksOf p).length ≤ 14) :
    (2 ^ 8 : Nat) ∣ wordOf (blocksOf p) := by
  unfold wordOf
  apply Dvd.dvd.mul_left
  apply Nat.pow_dvd_pow
  omega

theorem wordOf_blocksOf_lt {p : List Nat} (h : (blocksOf p).length ≤ 14) :
    wordOf (blocksOf p) < 2 ^ 64 := by
  apply wordOf_lt (fun b hb => blocksOf_mem hb)
  omega

theorem block_len_bits {p : List Nat} (h : (blocksOf p).length ≤ 14) :
    block_len (bitsOfPath p) = (blocksOf p).length := by
  unfold block_len MASK_LEN bitsOfPath
  have hm : (0xF0 : Nat) = (2 ^ 4 - 1) * 2 ^ 4 := by norm_num
  rw [hm, and_mask, Nat.shiftRight_eq_div_pow]
  obtain ⟨k, hk⟩ := wordOf_blocksOf_dvd h
  rw [hk]
  omega

theorem and_maskbits_bits {p : List Nat} (h : (blocksOf p).length ≤ 14) :
    bitsOfPath p &&& MASK_BITS = wordOf (blocksOf p) := by
  unfold MASK_BITS bitsOfPath
  have hm : (0xFFFFFFFFFFFFFF00 : Nat) = (2 ^ 56 - 1) * 2 ^ 8 := by norm_num
  rw [hm, and_mask]
  obtain ⟨k, hk⟩ := wordOf_blocksOf_dvd h
  have hlt := wordOf_blocksOf_lt h
  rw [hk] at hlt ⊢
  omega

theorem bitsToPath_bitsOfPath {p : List Nat} (h : (blocksOf p).length ≤ 14) :
    bitsToPath (bitsOfPath p) = p := by
  unfold bitsToPath
  rw [block_len_bits h, and_maskbits_bits h]
  have := bitsIter_decomp p [] (by simp) (by simpa using h)
  simp only [List.length_nil, List.append_nil, Nat.add_zero] at this
  rw [this, wordOf_nil, bitsIterAux_zero, List.append_nil]

theorem bitsOfPath_inj {p q : List Nat} (hp : (blocksOf p).length ≤ 14)
    (hq : (blocksOf q).length ≤ 14) (h : bitsOfPath p = bitsOfPath q) : p = q := by
  have := bitsToPath_bitsOfPath hp
  rw [h, bitsToPath_bitsOfPath hq] at this
  exact this.symm

/-- Elements of a path that fits in the inline budget are below `2 ^ 42`
(each index's block string is at most 14 blocks of 3 payload bits). -/
theorem fits_elem_lt {p : List Nat} (h : (blocksOf p).length ≤ 14)
    {i : Nat} (hi : i ∈ p) : i < 2 ^ 42 := by
  obtain ⟨s, t, hst⟩ := List.append_of_mem hi
  subst hst
  have hb : blocksOf (s ++ i :: t) = blocksOf s ++ (encBlocks i ++ blocksOf t) := by
    rw [blocksOf_append, blocksOf_cons]
  rw [hb] at h
  simp only [List.length_append] at h
  have hlen : (encBlocks i).length ≤ 14 := by omega
  have := (encBlocks_length_le i 14).mp hlen
  calc i < 8 ^ 14 := this.2
    _ = 2 ^ 42 := by norm_num

/-! ### `make_child` builds the canonical identifier -/

theorem req_bits_iff (i a : Nat) :
    max (bitLen i) 1 ≤ 3 * a ↔ (encBlocks i).length ≤ a := by
  rw [encBlocks_length_le]
  constructor
  · intro h
    have h1 : 1 ≤ 3 * a := le_trans (by omega) h
    refine ⟨by omega, ?_⟩
    have hs : bitLen i ≤ 3 * a := le_trans (Nat.le_max_left _ _) h
    have := (bitLen_le i (3 * a)).mp hs
    calc i < 2 ^ (3 * a) := this
      _ = 8 ^ a := by rw [Nat.pow_mul]
  · rintro ⟨ha, hlt⟩
    have hlt2 : i < 2 ^ (3 * a) := by
      calc i < 8 ^ a := hlt
        _ = 2 ^ (3 * a) := by rw [Nat.pow_mul]
    have := (bitLen_le i (3 * a)).mpr hlt2
    omega

theorem canon_word_step {s : List Nat} {i : Nat}
    (hfit : (blocksOf (s ++ [i])).length ≤ 14) :
    ((((bitsOfPath s &&& MASK_BITS) |||
        (blockVal (encBlocks i) <<< (4 * (14 - (blocksOf s).length)
          - 4 * (encBlocks i).length + 8)) % 2 ^ 64) |||
        ((blocksOf s).length + (encBlocks i).length) <<< 4) ||| 1)
      = bitsOfPath (s ++ [i]) := by
  have hL : (blocksOf (s ++ [i])).length
      = (blocksOf s).length + (encBlocks i).length := by
    rw [blocksOf_append, blocksOf_cons, blocksOf_nil, List.append_nil]
    simp [List.length_append]
  set L := (blocksOf s).length with hLdef
  set u := (encBlocks i).length with hudef
  have hLu : L + u ≤ 14 := by rw [← hL]; exact hfit
  have hu1 : 1 ≤ u := by
    rw [hudef]
    have := encBlocks_ne_nil i
    cases h : encBlocks i with
    | nil => exact absurd h this
    | cons a l => simp [h]
  have hLs : L ≤ 14 := by omega
  have hshift : 4 * (14 - L) - 4 * u + 8 = 64 - 4 * L - 4 * u := by omega
  have hbe : blockVal (encBlocks i) < 2 ^ (4 * u) := by
    have := blockVal_lt (l := encBlocks i) (fun b hb => encBlocks_mem hb)
    calc blockVal (encBlocks i) < 16 ^ u := this
      _ = 2 ^ (4 * u) := by rw [Nat.pow_mul]
  have hrest_lt : blockVal (encBlocks i) * 2 ^ (64 - 4 * L - 4 * u) < 2 ^ 64 := by
    calc blockVal (encBlocks i) * 2 ^ (64 - 4 * L - 4 * u)
        < 2 ^ (4 * u) * 2 ^ (64 - 4 * L - 4 * u) := by
          exact Nat.mul_lt_mul_of_lt_of_le hbe (Nat.le_refl _)
            (Nat.pos_pow_of_pos _ (by norm_num))
      _ ≤ 2 ^ 64 := by
          rw [← Nat.pow_add]
          apply Nat.pow_le_pow_right (by norm_num)
          omega
  have hrest : (blockVal (encBlocks i) <<< (4 * (14 - L) - 4 * u + 8)) % 2 ^ 64
      = blockVal (encBlocks i) * 2 ^ (64 - 4 * L - 4 * u) := by
    rw [hshift, Nat.shiftLeft_eq]
    exact Nat.mod_eq_of_lt hrest_lt
  rw [and_maskbits_bits hLs, hrest]
  have hw : wordOf (blocksOf s) ||| blockVal (encBlocks i) * 2 ^ (64 - 4 * L - 4 * u)
      = wordOf (blocksOf (s ++ [i])) := by
    have h1 : wordOf (blocksOf s)
        = blockVal (blocksOf s) * 2 ^ (4 * u) * 2 ^ (64 - 4 * L - 4 * u) := by
      unfold wordOf
      rw [Nat.mul_assoc, ← Nat.pow_add]
      congr 2
      omega
    have h2 : wordOf (blocksOf (s ++ [i]))
        = (blockVal (blocksOf s) * 2 ^ (4 * u) + blockVal (encBlocks i))
          * 2 ^ (64 - 4 * L - 4 * u) := by
      unfold wordOf
      rw [hL, blocksOf_append, blocksOf_cons, blocksOf_nil, List.append_nil,
        blockVal_append]
      congr 2
      · rw [Nat.pow_mul]
      · omega
    rw [h1, h2, ← or_mul_pow]
    congr 1
    exact or_small_eq_add hbe
  rw [hw]
  have hw2 : wordOf (blocksOf (s ++ [i])) ||| (L + u) <<< 4
      = wordOf (blocksOf (s ++ [i])) + (L + u) * 16 := by
    obtain ⟨k, hk⟩ := wordOf_blocksOf_dvd (p := s ++ [i]) hfit
    rw [hk, Nat.shiftLeft_eq]
    have hsm : (L + u) * 2 ^ 4 < 2 ^ 8 := by
      have : L + u ≤ 14 := hLu
      norm_num
      omega
    rw [Nat.mul_comm (2 ^ 8 : Nat) k, or_small_eq_add hsm]
    norm_num
  rw [hw2]
  have hw3 : wordOf (blocksOf (s ++ [i])) + (L + u) * 16 ||| 1
      = wordOf (blocksOf (s ++ [i])) + (L + u) * 16 + 1 := by
    obtain ⟨k, hk⟩ := wordOf_blocksOf_dvd (p := s ++ [i]) hfit
    have h16 : wordOf (blocksOf (s ++ [i])) + (L + u) * 16
        = (16 * k + L + u) * 2 ^ 4 := by
      rw [hk]
      ring
    rw [h16, or_small_eq_add (by norm_num)]
  rw [hw3, bitsOfPath, hL]

theorem canonId_nil : canonId [] = ROOT := by
  unfold canonId bitsOfPath
  rw [blocksOf_nil, wordOf_nil]
  simp [ROOT, USE_BITS]

theorem make_child_canon {s : List Nat} {i : Nat} :
    make_child (canonId s) i = some (canonId (s ++ [i])) := by
  have hLmono : (blocksOf (s ++ [i])).length
      = (blocksOf s).length + (encBlocks i).length := by
    rw [blocksOf_append, blocksOf_cons, blocksOf_nil, List.append_nil]
    simp [List.length_append]
  have hu1 : 1 ≤ (encBlocks i).length := by
    cases h : encBlocks i with
    | nil => exact absurd h (encBlocks_ne_nil i)
    | cons a l => simp [h]
  unfold canonId
  by_cases hfs : (blocksOf s).length ≤ 14
  · rw [if_pos hfs]
    show make_child (.intId (bitsOfPath s)) i = _
    simp only [make_child]
    rw [block_len_bits hfs]
    have hbk : BLOCKS - (blocksOf s).length = 14 - (blocksOf s).length := rfl
    rw [hbk]
    have hiff := req_bits_iff i (14 - (blocksOf s).length)
    by_cases hcond : max (bitLen i) 1 ≤ 3 * (14 - (blocksOf s).length)
    · rw [if_pos hcond]
      have hle : (encBlocks i).length ≤ 14 - (blocksOf s).length := hiff.mp hcond
      have hfit : (blocksOf (s ++ [i])).length ≤ 14 := by omega
      rw [if_pos hfit]
      have hsm : i < 2 ^ 48 := by
        have h1 := (encBlocks_length_le i (14 - (blocksOf s).length)).mp hle
        have h2 : (8 : Nat) ^ (14 - (blocksOf s).length) ≤ 8 ^ 14 :=
          Nat.pow_le_pow_right (by norm_num) (by omega)
        have h3 : (8 : Nat) ^ 14 < 2 ^ 48 := by norm_num
        omega
      have hmod : i % 2 ^ 48 = i := Nat.mod_eq_of_lt hsm
      rw [encode_eq, hmod]
      simp only []
      have hdiv : 4 * (encBlocks i).length / 4 = (encBlocks i).length := by omega
      rw [hdiv]
      have hstep := canon_word_step (s := s) (i := i) hfit
      rw [show (USE_BITS : Nat) = 1 from rfl]
      rw [show (4 * (14 - (blocksOf s).length) - 4 * (encBlocks i).length + 8)
        = (4 * (14 - (blocksOf s).length) - 4 * ((encBlocks i).length) + 8) from rfl]
      rw [hstep]
    · rw [if_neg hcond]
      have hgt : ¬(encBlocks i).length ≤ 14 - (blocksOf s).length := fun h =>
        hcond (hiff.mpr h)
      have hnofit : ¬(blocksOf (s ++ [i])).length ≤ 14 := by omega
      rw [if_neg hnofit, bitsToPath_bitsOfPath hfs]
  · rw [if_neg hfs]
    have hnofit : ¬(blocksOf (s ++ [i])).length ≤ 14 := by omega
    rw [if_neg hnofit]
    rfl

theorem fromPath_eq (s : List Nat) : fromPath s = some (canonId s) := by
  unfold fromPath
  induction s using List.reverseRecOn with
  | nil =>
    rw [canonId_nil]
    rfl
  | append_singleton s i ih =>
    rw [List.foldlM_append, ih]
    show make_child (canonId s) i >>= (fun b => pure b) = _
    simp only [bind_pure]
    exact make_child_canon

/-! ### Prefix structure of block strings -/

theorem decode_blocksOf {t : List Nat} (h : (blocksOf t).length ≤ 14) :
    bitsIterAux (blocksOf t).length (wordOf (blocksOf t)) = t := by
  have := bitsIter_decomp t [] (by simp) (by simpa using h)
  simp only [List.length_nil, List.append_nil, Nat.add_zero] at this
  rw [this, wordOf_nil, bitsIterAux_zero, List.append_nil]

theorem blocksOf_prefixed {s t : List Nat} (h : s <+: t) :
    blocksOf s <+: blocksOf t := by
  obtain ⟨r, hr⟩ := h
  subst hr
  rw [blocksOf_append]
  exact ⟨blocksOf r, rfl⟩

theorem prefix_of_blocks_take {s t : List Nat}
    (hfs : (blocksOf s).length ≤ 14) (hft : (blocksOf t).length ≤ 14)
    (h : (blocksOf t).take (blocksOf s).length = blocksOf s) : s <+: t := by
  have hle : (blocksOf s).length ≤ (blocksOf t).length := by
    by_contra hgt
    have := congrArg List.length h
    rw [List.length_take] at this
    omega
  have hsplit : blocksOf t = blocksOf s ++ (blocksOf t).drop (blocksOf s).length := by
    conv_lhs => rw [← List.take_append_drop (blocksOf s).length (blocksOf t)]
    rw [h]
  have hdm : ∀ b ∈ (blocksOf t).drop (blocksOf s).length, b < 16 := fun b hb =>
    blocksOf_mem (List.mem_of_mem_drop hb)
  have hlen : (blocksOf s).length + ((blocksOf t).drop (blocksOf s).length).length ≤ 14 := by
    rw [List.length_drop]
    omega
  have hdec := decode_blocksOf hft
  rw [hsplit] at hdec
  rw [show (blocksOf s ++ (blocksOf t).drop (blocksOf s).length).length
    = (blocksOf s).length + ((blocksOf t).drop (blocksOf s).length).length from by
      simp [List.length_append]] at hdec
  rw [bitsIter_decomp s _ hdm hlen] at hdec
  exact ⟨_, hdec⟩

theorem blockVal_take_split {l : List Nat} (n : Nat) (hn : n ≤ l.length) :
    blockVal l = blockVal (l.take n) * 16 ^ (l.length - n) + blockVal (l.drop n) := by
  conv_lhs => rw [← List.take_append_drop n l]
  rw [blockVal_append, List.length_drop]

theorem blockVal_inj {a b : List Nat} (hl : a.length = b.length)
    (ha : ∀ x ∈ a, x < 16) (hb : ∀ x ∈ b, x < 16)
    (h : blockVal a = blockVal b) : a = b := by
  induction a generalizing b with
  | nil =>
    cases b with
    | nil => rfl
    | cons x xs => simp at hl
  | cons x xs ih =>
    cases b with
    | nil => simp at hl
    | cons y ys =>
      simp only [List.length_cons] at hl
      have hxy : x = y ∧ blockVal xs = blockVal ys := by
        rw [blockVal_cons, blockVal_cons] at h
        have hx16 : x < 16 := ha x (List.mem_cons_self x xs)
        have hy16 : y < 16 := hb y (List.mem_cons_self y ys)
        have hxs := blockVal_lt (l := xs)
          (fun z hz => ha z (List.mem_cons_of_mem x hz))
        have hys := blockVal_lt (l := ys)
          (fun z hz => hb z (List.mem_cons_of_mem y hz))
        have hl2 : ys.length = xs.length := by omega
        rw [hl2] at h hys
        constructor
        · by_contra hne
          rcases Nat.lt_or_ge x y with hlt | hge
          · nlinarith
          · have : y < x := by omega
            nlinarith
        · have : x = y := by
            by_contra hne
            rcases Nat.lt_or_ge x y with hlt | hge
            · nlinarith
            · have : y < x := by omega
              nlinarith
          rw [this] at h
          omega
      rw [hxy.1, ih (by omega) (fun z hz => ha z (List.mem_cons_of_mem x hz))
        (fun z hz => hb z (List.mem_cons_of_mem y hz)) hxy.2]

/-! ### Reading the top blocks of a canonical word with a right shift -/

theorem bits_div_general {t : List Nat} (n : Nat)
    (hft : (blocksOf t).length ≤ 14) (hn : n ≤ (blocksOf t).length) :
    bitsOfPath t / 2 ^ (64 - 4 * n) = blockVal ((blocksOf t).take n) := by
  have hLt : (blocksOf t).length ≤ 14 := hft
  set ct := blocksOf t with hct
  set Lt := ct.length with hLtdef
  have hsplit := blockVal_take_split (l := ct) n hn
  have hword : bitsOfPath t
      = blockVal (ct.take n) * 2 ^ (64 - 4 * n)
        + (blockVal (ct.drop n) * 2 ^ (64 - 4 * Lt) + (Lt * 16 + 1)) := by
    unfold bitsOfPath wordOf
    rw [← hct, ← hLtdef, hsplit, Nat.add_mul]
    have hpow : 16 ^ (Lt - n) * 2 ^ (64 - 4 * Lt) = 2 ^ (64 - 4 * n) := by
      rw [show (16 : Nat) ^ (Lt - n) = 2 ^ (4 * (Lt - n)) from by rw [Nat.pow_mul]]
      rw [← Nat.pow_add]
      congr 1
      omega
    rw [Nat.mul_assoc, hpow]
    ring
  have hdrop_lt : blockVal (ct.drop n) < 16 ^ (Lt - n) := by
    have := blockVal_lt (l := ct.drop n)
      (fun b hb => blocksOf_mem (hct ▸ List.mem_of_mem_drop hb))
    rw [List.length_drop] at this
    exact this
  have hrem : blockVal (ct.drop n) * 2 ^ (64 - 4 * Lt) + (Lt * 16 + 1)
      < 2 ^ (64 - 4 * n) := by
    have h1 : Lt * 16 + 1 < 2 ^ (64 - 4 * Lt) := by
      have : (2 : Nat) ^ 8 ≤ 2 ^ (64 - 4 * Lt) :=
        Nat.pow_le_pow_right (by norm_num) (by omega)
      have h2 : Lt * 16 + 1 < 2 ^ 8 := by norm_num; omega
      omega
    have h2 : blockVal (ct.drop n) * 2 ^ (64 - 4 * Lt)
        ≤ (16 ^ (Lt - n) - 1) * 2 ^ (64 - 4 * Lt) := by
      apply Nat.mul_le_mul_right
      omega
    have h3 : 16 ^ (Lt - n) * 2 ^ (64 - 4 * Lt) = 2 ^ (64 - 4 * n) := by
      rw [show (16 : Nat) ^ (Lt - n) = 2 ^ (4 * (Lt - n)) from by rw [Nat.pow_mul]]
      rw [← Nat.pow_add]
      congr 1
      omega
    have h5 : (16 ^ (Lt - n) - 1) * 2 ^ (64 - 4 * Lt) + 2 ^ (64 - 4 * Lt)
        = 2 ^ (64 - 4 * n) := by
      rw [Nat.sub_one_mul,
        Nat.sub_add_cancel (Nat.le_mul_of_pos_left _ (by positivity)), h3]
    omega
  rw [hword, Nat.mul_comm (blockVal (ct.take n)) (2 ^ (64 - 4 * n)),
    Nat.mul_add_div (Nat.pos_pow_of_pos _ (by norm_num)),
    Nat.div_eq_of_lt hrem, Nat.add_zero]

theorem bits_shift (t : List Nat) (n : Nat)
    (hft : (blocksOf t).length ≤ 14) (hn : n ≤ (blocksOf t).length) :
    bitsOfPath t >>> (4 * (14 - n) + 8) = blockVal ((blocksOf t).take n) := by
  rw [Nat.shiftRight_eq_div_pow]
  have hsh : 4 * (14 - n) + 8 = 64 - 4 * n := by omega
  rw [hsh]
  exact bits_div_general n hft hn

theorem bits_shift_self {s : List Nat} (h : (blocksOf s).length ≤ 14) :
    bitsOfPath s >>> (4 * (14 - (blocksOf s).length) + 8) = blockVal (blocksOf s) := by
  rw [bits_shift s (blocksOf s).length h (Nat.le_refl _), List.take_length]

/-! ### Small path/zip utilities -/

theorem blocksOf_length_pos {s : List Nat} (h : s ≠ []) :
    0 < (blocksOf s).length := by
  cases s with
  | nil => exact absurd rfl h
  | cons i p =>
    rw [blocksOf_cons]
    simp only [List.length_append]
    have hu1 : 1 ≤ (encBlocks i).length := by
      cases hh : encBlocks i with
      | nil => exact absurd hh (encBlocks_ne_nil i)
      | cons a l => simp [hh]
    omega

theorem blocksOf_len_mono {s t : List Nat} (h : s <+: t) :
    (blocksOf s).length ≤ (blocksOf t).length :=
  (blocksOf_prefixed h).length_le

theorem blocksOf_len_strict {s t : List Nat} (h : s <+: t) (hne : s ≠ t) :
    (blocksOf s).length < (blocksOf t).length := by
  obtain ⟨r, hr⟩ := h
  subst hr
  have hrne : r ≠ [] := by
    intro hnil
    rw [hnil, List.append_nil] at hne
    exact hne rfl
  rw [blocksOf_append]
  simp only [List.length_append]
  have := blocksOf_length_pos hrne
  omega

theorem zipAgree_iff (s : List Nat) :
    ∀ t : List Nat, ((s.zip t).all fun ab => ab.1 == ab.2) = true ↔
      s.take t.length = t.take s.length := by
  induction s with
  | nil =>
    intro t
    simp
  | cons a s ih =>
    intro t
    cases t with
    | nil => simp
    | cons b t =>
      simp only [List.zip_cons_cons, List.all_cons, List.length_cons,
        List.take_succ_cons, Bool.and_eq_true, beq_iff_eq, List.cons.injEq]
      rw [ih t]

theorem zipAgree_prefixed {s t : List Nat} (h : s <+: t) :
    ((s.zip t).all fun ab => ab.1 == ab.2) = true := by
  rw [zipAgree_iff]
  obtain ⟨r, hr⟩ := h
  subst hr
  rw [List.take_left]
  apply List.take_of_length_le
  simp only [List.length_append]
  omega

theorem prefix_of_zipAgree {s t : List Nat}
    (h : ((s.zip t).all fun ab => ab.1 == ab.2) = true)
    (hlen : s.length ≤ t.length) : s <+: t := by
  rw [zipAgree_iff] at h
  rw [List.take_of_length_le hlen] at h
  rw [List.prefix_iff_eq_take, ← h]

theorem reverse_of_zipAgree {s t : List Nat}
    (h : ((s.zip t).all fun ab => ab.1 == ab.2) = true)
    (hlen : t.length ≤ s.length) : t <+: s := by
  rw [zipAgree_iff] at h
  rw [List.take_of_length_le hlen] at h
  rw [List.prefix_iff_eq_take, h]

theorem prefix_iff_blockVal {s t : List Nat}
    (hfs : (blocksOf s).length ≤ 14) (hft : (blocksOf t).length ≤ 14)
    (hle : (blocksOf s).length ≤ (blocksOf t).length) :
    (blockVal (blocksOf s) = blockVal ((blocksOf t).take (blocksOf s).length))
      ↔ s <+: t := by
  constructor
  · intro h
    apply prefix_of_blocks_take hfs hft
    apply blockVal_inj
    · rw [List.length_take]
      omega
    · exact fun x hx => blocksOf_mem (List.take_subset _ _ hx)
    · exact fun x hx => blocksOf_mem hx
    · exact h.symm
  · intro h
    obtain ⟨r, hr⟩ := blocksOf_prefixed h
    rw [← hr, List.take_left]

theorem not_prefix_of_overflow {s t : List Nat}
    (hfs : ¬(blocksOf s).length ≤ 14) (hft : (blocksOf t).length ≤ 14) :
    s.isPrefixOf t = false := by
  rw [← Bool.not_eq_true, List.isPrefixOf_iff_prefix]
  intro hpre
  exact hfs (le_trans (blocksOf_len_mono hpre) hft)

theorem path_nil_of_blocks_zero {s : List Nat}
    (hz : (blocksOf s).length = 0) : s = [] := by
  by_contra hne
  have := blocksOf_length_pos hne
  omega

theorem is_ancestor_canon (s t : List Nat) :
    is_ancestor_of (canonId s) (canonId t) = s.isPrefixOf t := by
  unfold canonId
  by_cases hfs : (blocksOf s).length ≤ 14 <;>
    by_cases hft : (blocksOf t).length ≤ 14
  · rw [if_pos hfs, if_pos hft]
    simp only [is_ancestor_of, BLOCKS]
    rw [block_len_bits hfs, block_len_bits hft]
    by_cases hgt : (blocksOf s).length > (blocksOf t).length
    · rw [if_pos hgt]
      symm
      rw [← Bool.not_eq_true, List.isPrefixOf_iff_prefix]
      intro hpre
      exact absurd (blocksOf_len_mono hpre) (by omega)
    · rw [if_neg hgt]
      push_neg at hgt
      rw [Bool.eq_iff_iff]
      simp only [Bool.or_eq_true, beq_iff_eq, List.isPrefixOf_iff_prefix]
      rw [bits_shift_self hfs, bits_shift t _ hft hgt]
      constructor
      · rintro (h64 | hbv)
        · have hz : (blocksOf s).length = 0 := by omega
          rw [path_nil_of_blocks_zero hz]
          exact List.nil_prefix
        · exact (prefix_iff_blockVal hfs hft hgt).mp hbv
      · intro hpre
        right
        exact (prefix_iff_blockVal hfs hft hgt).mpr hpre
  · rw [if_pos hfs, if_neg hft]
    simp only [is_ancestor_of]
    rw [bitsToPath_bitsOfPath hfs]
    rw [Bool.eq_iff_iff, List.isPrefixOf_iff_prefix]
    constructor
    · intro hz
      have hlen : s.length ≤ t.length := by
        by_contra hgt2
        push_neg at hgt2
        have hrev := reverse_of_zipAgree hz (by omega)
        have := blocksOf_len_mono hrev
        omega
      exact prefix_of_zipAgree hz hlen
    · exact zipAgree_prefixed
  · rw [if_neg hfs, if_pos hft]
    simp only [is_ancestor_of]
    symm
    exact not_prefix_of_overflow hfs hft
  · rw [if_neg hfs, if_neg hft]
    simp only [is_ancestor_of]

theorem index_of_child_canon (s t : List Nat) :
    index_of_child (canonId s) (canonId t)
      = if s.isPrefixOf t then (t.drop s.length).head? else none := by
  unfold canonId
  by_cases hfs : (blocksOf s).length ≤ 14 <;>
    by_cases hft : (blocksOf t).length ≤ 14
  · rw [if_pos hfs, if_pos hft]
    simp only [index_of_child, BLOCKS]
    rw [block_len_bits hfs, block_len_bits hft]
    by_cases hge : (blocksOf s).length ≥ (blocksOf t).length
    · rw [if_pos hge]
      symm
      by_cases hpre : s.isPrefixOf t = true
      · rw [if_pos hpre]
        have hp := List.isPrefixOf_iff_prefix.mp hpre
        have hst : s = t := by
          by_contra hne
          have := blocksOf_len_strict hp hne
          omega
        subst hst
        rw [List.drop_length]
        rfl
      · rw [if_neg hpre]
    · rw [if_neg hge]
      push_neg at hge
      by_cases hz : (blocksOf s).length = 0
      · have hs0 := path_nil_of_blocks_zero hz
        subst hs0
        have hcond : ¬(4 * (14 - (blocksOf ([] : List Nat)).length) + 8 ≠ 64
            ∧ bitsOfPath [] >>> (4 * (14 - (blocksOf ([] : List Nat)).length) + 8)
              ≠ bitsOfPath t >>> (4 * (14 - (blocksOf ([] : List Nat)).length) + 8)) := by
          intro h
          apply h.1
          rw [blocksOf_nil]
          rfl
        rw [if_neg hcond]
        cases t with
        | nil =>
          exfalso
          rw [blocksOf_nil] at hge
          simp at hge
        | cons i t2 =>
          rw [and_maskbits_bits hft]
          rw [blocksOf_nil, List.length_nil, Nat.mul_zero, Nat.shiftLeft_zero]
          rw [Nat.mod_eq_of_lt (wordOf_blocksOf_lt hft)]
          rw [blocksOf_cons] at hft ⊢
          have hmem2 : ∀ b ∈ blocksOf t2, b < 16 := fun b hb => blocksOf_mem hb
          rw [next_from_bits_enc i (blocksOf t2) hmem2
            (by simp only [List.length_append] at hft ⊢; omega)]
          rw [if_pos (by rw [List.isPrefixOf_iff_prefix]; exact List.nil_prefix)]
          rfl
      · by_cases heq : bitsOfPath s >>> (4 * (14 - (blocksOf s).length) + 8)
            = bitsOfPath t >>> (4 * (14 - (blocksOf s).length) + 8)
        · rw [if_neg (fun h => h.2 heq)]
          have heq2 := heq
          rw [bits_shift_self hfs, bits_shift t _ hft (by omega)] at heq2
          have hpre : s <+: t := (prefix_iff_blockVal hfs hft (by omega)).mp heq2
          obtain ⟨r, hr⟩ := hpre
          subst hr
          rw [and_maskbits_bits hft, blocksOf_append]
          rw [shift_wordOf_append (blocksOf s) (blocksOf r)
            (fun b hb => blocksOf_mem hb) (fun b hb => blocksOf_mem hb)
            (by rw [blocksOf_append] at hft; simp only [List.length_append] at hft ⊢; omega)]
          cases r with
          | nil =>
            exfalso
            rw [blocksOf_append, blocksOf_nil, List.append_nil] at hge
            omega
          | cons r0 r2 =>
            rw [blocksOf_cons]
            have hmem2 : ∀ b ∈ blocksOf r2, b < 16 := fun b hb => blocksOf_mem hb
            rw [next_from_bits_enc r0 (blocksOf r2) hmem2
              (by rw [blocksOf_append, blocksOf_cons] at hft
                  simp only [List.length_append] at hft ⊢
                  omega)]
            rw [if_pos (by rw [List.isPrefixOf_iff_prefix]; exact ⟨r0 :: r2, rfl⟩)]
            rw [List.drop_left]
            rfl
        · rw [if_pos ⟨by omega, heq⟩]
          symm
          rw [if_neg]
          intro hpre
          have hp := List.isPrefixOf_iff_prefix.mp hpre
          rw [bits_shift_self hfs, bits_shift t _ hft (by omega)] at heq
          exact heq ((prefix_iff_blockVal hfs hft (by omega)).mpr hp)
  · rw [if_pos hfs, if_neg hft]
    simp only [index_of_child]
    rw [bitsToPath_bitsOfPath hfs]
    by_cases hpre : s <+: t
    · rw [if_pos (zipAgree_prefixed hpre),
        if_pos (List.isPrefixOf_iff_prefix.mpr hpre)]
    · have hnp : ¬s.isPrefixOf t = true := fun h =>
        hpre (List.isPrefixOf_iff_prefix.mp h)
      by_cases hz : ((s.zip t).all fun ab => ab.1 == ab.2) = true
      · rw [if_pos hz, if_neg hnp]
        have hlen : t.length < s.length := by
          by_contra hc
          push_neg at hc
          exact hpre (prefix_of_zipAgree hz hc)
        rw [List.drop_eq_nil_of_le (by omega)]
        rfl
      · rw [if_neg hz, if_neg hnp]
  · rw [if_neg hfs, if_pos hft]
    simp only [index_of_child]
    symm
    rw [if_neg]
    intro hpre
    have hfalse := not_prefix_of_overflow hfs hft
    rw [hpre] at hfalse
    exact Bool.noConfusion hfalse
  · rw [if_neg hfs, if_neg hft]
    simp only [index_of_child]

/-! ### Equality at canonical identifiers -/

theorem eqv_canon (s t : List Nat) :
    eqv (canonId s) (canonId t) = some (decide (s = t)) := by
  unfold canonId
  by_cases hfs : (blocksOf s).length ≤ 14 <;>
    by_cases hft : (blocksOf t).length ≤ 14
  · rw [if_pos hfs, if_pos hft]
    simp only [eqv]
    congr 1
    rw [decide_eq_decide]
    constructor
    · exact fun h => bitsOfPath_inj hfs hft h
    · intro h
      rw [h]
  · rw [if_pos hfs, if_neg hft]
    simp only [eqv]
    congr 1
    rw [decide_eq_decide, bitsToPath_bitsOfPath hfs]
  · rw [if_neg hfs, if_pos hft]
    simp only [eqv]
    congr 1
    rw [decide_eq_decide, bitsToPath_bitsOfPath hft]
  · rw [if_neg hfs, if_neg hft]
    simp only [eqv]

theorem eqv_canon_slice (s p : List Nat) :
    eqv (canonId s) (.sliceId p) = some (decide (s = p)) := by
  unfold canonId
  by_cases hfs : (blocksOf s).length ≤ 14
  · rw [if_pos hfs]
    simp only [eqv]
    congr 1
    rw [decide_eq_decide, bitsToPath_bitsOfPath hfs]
  · rw [if_neg hfs]
    simp only [eqv]

theorem eqv_slice_canon (p t : List Nat) :
    eqv (.sliceId p) (canonId t) = some (decide (p = t)) := by
  unfold canonId
  by_cases hft : (blocksOf t).length ≤ 14
  · rw [if_pos hft]
    simp only [eqv]
    congr 1
    rw [decide_eq_decide, bitsToPath_bitsOfPath hft]
  · rw [if_neg hft]
    simp only [eqv]

/-! ### Display -/

theorem hexDigitsRev_zero : hexDigitsRev 0 = [] := rfl

theorem hexDigitsRev_ne {n : Nat} (h : n ≠ 0) :
    hexDigitsRev n = hexChar (n % 16) :: hexDigitsRev (n / 16) := by
  rw [hexDigitsRev_unfold, if_neg h]

theorem fmtHex_zero (w : Nat) :
    fmtHex w 0 = List.replicate (w - 1) '0' ++ ['0'] := by
  unfold fmtHex
  simp

theorem fmtHex_cons (w n : Nat) (hw : 1 ≤ w) :
    fmtHex (w + 1) n = fmtHex w (n / 16) ++ [hexChar (n % 16)] := by
  by_cases h0 : n = 0
  · subst h0
    rw [fmtHex_zero, fmtHex_zero, Nat.zero_mod,
      show hexChar 0 = '0' from rfl]
    rw [show w + 1 - 1 = (w - 1) + 1 from by omega]
    rw [List.replicate_succ' (w - 1) '0', List.append_assoc]
  · by_cases h16 : n / 16 = 0
    · rw [h16, fmtHex_zero]
      unfold fmtHex
      rw [if_neg h0, hexDigitsRev_ne h0, h16, hexDigitsRev_zero]
      simp only [List.reverse_cons, List.reverse_nil, List.nil_append,
        List.length_singleton]
      rw [show w + 1 - 1 = (w - 1) + 1 from by omega]
      rw [List.replicate_succ' (w - 1) '0', List.append_assoc]
    · unfold fmtHex
      rw [if_neg h0, if_neg h16, hexDigitsRev_ne h0]
      simp only [List.reverse_cons, List.length_append, List.length_reverse,
        List.length_singleton]
      rw [← List.append_assoc]
      have hlen : w + 1 - ((hexDigitsRev (n / 16)).length + 1)
          = w - (hexDigitsRev (n / 16)).length := by omega
      rw [hlen]

theorem fmtHex_one {b : Nat} (hb : b < 16) : fmtHex 1 b = [hexChar b] := by
  by_cases h0 : b = 0
  · subst h0
    rfl
  · unfold fmtHex
    rw [if_neg h0, hexDigitsRev_ne h0, Nat.div_eq_of_lt hb, hexDigitsRev_zero,
      Nat.mod_eq_of_lt hb]
    rfl

theorem fmtHex_blocks (bs : List Nat) (hne : bs ≠ []) (hw : ∀ b ∈ bs, b < 16) :
    fmtHex bs.length (blockVal bs) = bs.map hexChar := by
  induction bs using List.reverseRecOn with
  | nil => exact absurd rfl hne
  | append_singleton bs b ih =>
    by_cases hbs : bs = []
    · subst hbs
      simp only [List.nil_append, List.length_singleton, List.map_cons,
        List.map_nil]
      rw [show blockVal [b] = b from blockVal_singleton b]
      exact fmtHex_one (hw b (by simp))
    · have hb : b < 16 := hw b (by simp)
      have hw2 : ∀ x ∈ bs, x < 16 := fun x hx =>
        hw x (List.mem_append.mpr (Or.inl hx))
      have hval : blockVal (bs ++ [b]) = 16 * blockVal bs + b := by
        rw [blockVal_append, blockVal_singleton, List.length_singleton]
        ring
      have h1 : 1 ≤ bs.length := by
        cases bs with
        | nil => exact absurd rfl hbs
        | cons x l => simp
      rw [show (bs ++ [b]).length = bs.length + 1 from by
        simp [List.length_append]]
      rw [fmtHex_cons _ _ h1, hval]
      rw [show (16 * blockVal bs + b) / 16 = blockVal bs from by omega]
      rw [show (16 * blockVal bs + b) % 16 = b from by omega]
      rw [ih hbs hw2, List.map_append]
      rfl

theorem display_slice (p : List Nat) :
    display (.sliceId p) = String.mk ('#' ::
      (p.map fun i => (encBlocks (i % 2 ^ 48)).map hexChar).flatten) := by
  simp only [display]
  congr 2
  apply congrArg
  apply List.map_congr_left
  intro i _
  rw [encode_eq]
  simp only []
  rw [show 4 * (encBlocks (i % 2 ^ 48)).length / 4
    = (encBlocks (i % 2 ^ 48)).length from by omega]
  exact fmtHex_blocks _ (encBlocks_ne_nil _) (fun b hb => encBlocks_mem hb)

theorem display_canon (s : List Nat) :
    display (canonId s) = String.mk ('#' ::
      (s.map fun i => (encBlocks (i % 2 ^ 48)).map hexChar).flatten) := by
  unfold canonId
  by_cases hfs : (blocksOf s).length ≤ 14
  · rw [if_pos hfs]
    simp only [display, BLOCKS]
    rw [block_len_bits hfs]
    by_cases hz : (blocksOf s).length = 0
    · rw [if_pos hz]
      rw [path_nil_of_blocks_zero hz]
      decide
    · rw [if_neg hz]
      rw [bits_shift_self hfs, fmtHex_blocks _
        (fun h => hz (by rw [h]; rfl)) (fun b hb => blocksOf_mem hb)]
      congr 2
      unfold blocksOf
      rw [List.map_flatten, List.map_map]
      apply congrArg
      apply List.map_congr_left
      intro i hi
      have := fits_elem_lt hfs hi
      show (encBlocks i).map hexChar = (encBlocks (i % 2 ^ 48)).map hexChar
      rw [Nat.mod_eq_of_lt (by omega)]
  · rw [if_neg hfs]
    exact display_slice s

/-! ### Raw `u64` conversions -/

theorem bitsOfPath_mod4 {p : List Nat} (h : (blocksOf p).length ≤ 14) :
    bitsOfPath p % 4 = 1 := by
  obtain ⟨k, hk⟩ := wordOf_blocksOf_dvd h
  unfold bitsOfPath
  rw [hk]
  omega

theorem bitsOfPath_and3 {p : List Nat} (h : (blocksOf p).length ≤ 14) :
    bitsOfPath p &&& 3 = 1 := by
  rw [and_three_eq_mod]
  exact bitsOfPath_mod4 h

theorem bitsOfPath_ne_zero {p : List Nat} (h : (blocksOf p).length ≤ 14) :
    bitsOfPath p ≠ 0 := by
  have := bitsOfPath_mod4 h
  omega

theorem bitsOfPath_ne_INVALID {p : List Nat} (h : (blocksOf p).length ≤ 14) :
    bitsOfPath p ≠ INVALID := by
  have h1 := bitsOfPath_mod4 h
  have h2 : INVALID % 4 = 3 := by
    unfold INVALID
    norm_num
  intro he
  rw [he, h2] at h1
  omega

theorem optFromU64_int {p : List Nat} (h : (blocksOf p).length ≤ 14) :
    optFromU64 (bitsOfPath p) = some (some (bitsOfPath p)) := by
  unfold optFromU64
  rw [if_neg (bitsOfPath_ne_zero h), if_pos (Or.inl (bitsOfPath_and3 h))]

theorem getVariant_int {p : List Nat} (h : (blocksOf p).length ≤ 14)
    (heap : Nat → List Nat) :
    getVariant heap (bitsOfPath p) = .intId (bitsOfPath p) := by
  unfold getVariant USE_BITS
  have h4 := bitsOfPath_mod4 h
  rw [if_neg (by rw [and_one_eq_mod]; omega), if_neg (bitsOfPath_ne_INVALID h)]

theorem ptr_or_two {addr : Nat} (ha : addr % 4 = 0) : addr ||| 2 = addr + 2 := by
  obtain ⟨k, hk⟩ : ∃ k, addr = k * 2 ^ 2 := ⟨addr / 4, by omega⟩
  rw [hk, or_small_eq_add (by norm_num)]

theorem optFromU64_ptr {addr : Nat} (ha : addr % 4 = 0) (h0 : addr ≠ 0) :
    optFromU64 (addr ||| 2) = some (some (addr ||| 2)) := by
  rw [ptr_or_two ha]
  unfold optFromU64
  rw [if_neg (by omega), if_pos (Or.inr (by rw [and_three_eq_mod]; omega))]

theorem getVariant_ptr {addr : Nat} (ha : addr % 4 = 0) (h64 : addr < 2 ^ 64)
    (heap : Nat → List Nat) :
    getVariant heap (addr ||| 2) = .sliceId (heap addr) := by
  rw [ptr_or_two ha]
  unfold getVariant USE_BITS MASK_PTR
  rw [if_pos (by rw [and_one_eq_mod]; omega)]
  have hm : (0xFFFFFFFFFFFFFFFC : Nat) = (2 ^ 62 - 1) * 2 ^ 2 := by norm_num
  have hmask2 : (addr + 2) &&& 0xFFFFFFFFFFFFFFFC = addr := by
    rw [hm, and_mask]
    omega
  rw [hmask2]

theorem optFromU64_INVALID : optFromU64 INVALID = none := by decide

theorem optFromU64_zero : optFromU64 0 = some none := rfl

/-! ### Reference counting -/

theorem rcRun_clones (N c : Nat) (hc : 1 ≤ c) (hmax : c + N < 2 ^ 64) :
    rcRun (.live c) (List.replicate N .clone) = some (.live (c + N)) := by
  induction N generalizing c with
  | zero => rfl
  | succ n ih =>
    rw [List.replicate_succ]
    have hstep : rcStep (.live c) .clone = some (.live (c + 1)) := by
      simp only [rcStep]
      rw [if_neg (by omega)]
    unfold rcRun
    rw [List.foldlM_cons, hstep]
    show rcRun (.live (c + 1)) (List.replicate n .clone) = _
    rw [ih (c + 1) (by omega) (by omega)]
    congr 2
    omega

theorem rcRun_drops (k c : Nat) (hk : k < c) :
    rcRun (.live c) (List.replicate k .drop) = some (.live (c - k)) := by
  induction k generalizing c with
  | zero =>
    simp only [List.replicate_zero]
    rw [Nat.sub_zero]
    rfl
  | succ n ih =>
    rw [List.replicate_succ]
    have hstep : rcStep (.live c) .drop = some (.live (c - 1)) := by
      simp only [rcStep]
      rw [if_pos (by omega)]
    unfold rcRun
    rw [List.foldlM_cons, hstep]
    show rcRun (.live (c - 1)) (List.replicate n .drop) = _
    rw [ih (c - 1) (by omega)]
    congr 2
    omega

theorem rcRun_last_drop (c : Nat) (hc : c = 1) :
    rcRun (.live c) [.drop] = some .freed := by
  subst hc
  rfl

theorem rcRun_append (s : RcState) (l1 l2 : List RcOp) :
    rcRun s (l1 ++ l2) = (rcRun s l1) >>= (fun s2 => rcRun s2 l2) := by
  unfold rcRun
  rw [List.foldlM_append]

/-! ## The claims -/

/-- C1: Path round-trip: building an identifier from the root by one
`make_child` per element of `s` (in order) succeeds and yields the
canonical identifier of `s` (inline while the 14-block budget suffices,
out-of-line beyond it, including multi-block base-8 continuation
encodings), and collecting `iter_path` on it returns exactly `s`. -/
theorem claim1_path_roundtrip (s : List Nat) (hs : ∀ i ∈ s, i < 2 ^ 64) :
    fromPath s = some (canonId s) ∧ iter_path (canonId s) = some s := by
  refine ⟨fromPath_eq s, ?_⟩
  unfold canonId
  by_cases hfs : (blocksOf s).length ≤ 14
  · rw [if_pos hfs]
    simp only [iter_path]
    rw [bitsToPath_bitsOfPath hfs]
  · rw [if_neg hfs]
    rfl

theorem claim1_witness :
    fromPath [313553, 13513, 13511631] = some (canonId [313553, 13513, 13511631])
      ∧ iter_path (canonId [313553, 13513, 13511631])
        = some [313553, 13513, 13511631] :=
  claim1_path_roundtrip [313553, 13513, 13511631] (by decide)

/-- C2: Equality is logical-path equality: for identifiers built via
`ROOT`/`make_child` or constructed directly as out-of-line arrays,
`eqv` returns `some true` exactly when the decoded paths coincide, in
every combination of internal variants; in particular the inline id for
`[0,0,0]` equals the out-of-line array `[0,0,0]`, and the inline/inline
raw-`u64` fast path agrees with decoded-path equality. -/
theorem claim2_eq_is_path_eq (s t p q : List Nat) (a b : WidgetId)
    (hs : ∀ i ∈ s, i < 2 ^ 64) (ht : ∀ i ∈ t, i < 2 ^ 64)
    (ha : fromPath s = some a) (hb : fromPath t = some b) :
    eqv a b = some (decide (s = t))
  ∧ eqv a (.sliceId p) = some (decide (s = p))
  ∧ eqv (.sliceId q) b = some (decide (q = t))
  ∧ eqv (.sliceId p) (.sliceId q) = some (decide (p = q))
  ∧ eqv (canonId [0, 0, 0]) (.sliceId [0, 0, 0]) = some true := by
  rw [fromPath_eq] at ha hb
  have ha2 : a = canonId s := (Option.some_inj.mp ha).symm
  have hb2 : b = canonId t := (Option.some_inj.mp hb).symm
  subst ha2
  subst hb2
  refine ⟨eqv_canon s t, eqv_canon_slice s p, eqv_slice_canon q t, ?_, by decide⟩
  simp only [eqv]

theorem claim2_witness :
    eqv (canonId [0, 15]) (canonId [0, 15]) = some (decide ([0, 15] = [0, 15]))
  ∧ eqv (canonId [0, 15]) (.sliceId [1, 2])
      = some (decide (([0, 15] : List Nat) = [1, 2]))
  ∧ eqv (.sliceId [3]) (canonId [0, 15])
      = some (decide (([3] : List Nat) = [0, 15]))
  ∧ eqv (.sliceId [1, 2]) (.sliceId [3])
      = some (decide (([1, 2] : List Nat) = [3]))
  ∧ eqv (canonId [0, 0, 0]) (.sliceId [0, 0, 0]) = some true :=
  claim2_eq_is_path_eq [0, 15] [0, 15] [1, 2] [3] (canonId [0, 15])
    (canonId [0, 15]) (by decide) (by decide) (fromPath_eq _) (fromPath_eq _)

/-- C3 counterexample: the claim extends prefix-iff ancestry to
directly-constructed out-of-line arrays in every variant combination,
but an out-of-line `[0]` is not reported as an ancestor of the inline
identifier for `[0]` (built by `make_child`), although `[0]` is a
prefix of `[0]`: `is_ancestor_of` returns `false` unconditionally on
the (Slice, Int) combination. -/
theorem claim3_counterexample :
    canonId [0] = .intId 17
  ∧ fromPath [0] = some (.intId 17)
  ∧ is_ancestor_of (.sliceId [0]) (.intId 17) = false
  ∧ ([0] : List Nat).isPrefixOf [0] = true := by decide

/-- C3 amended: for identifiers built via `ROOT`/`make_child`,
`is_ancestor_of` decides prefix order of the decoded paths (hence every
identifier is its own ancestor), and this also holds when both sides
are directly-constructed out-of-line arrays; but when the left side is
out-of-line and the right side inline the code returns `false` without
decoding (such a pair is never ancestor-related among `make_child`-built
identifiers).  Invalid on either side gives `false`. -/
theorem claim3_ancestor_amended (s t p q : List Nat) (a b w : WidgetId) (x : Nat)
    (hs : ∀ i ∈ s, i < 2 ^ 64) (ht : ∀ i ∈ t, i < 2 ^ 64)
    (ha : fromPath s = some a) (hb : fromPath t = some b) :
    is_ancestor_of a b = s.isPrefixOf t
  ∧ is_ancestor_of a a = true
  ∧ is_ancestor_of (.sliceId p) (.sliceId q) = p.isPrefixOf q
  ∧ is_ancestor_of (.sliceId p) (.intId x) = false
  ∧ is_ancestor_of .invalid w = false
  ∧ is_ancestor_of w .invalid = false := by
  rw [fromPath_eq] at ha hb
  have ha2 : a = canonId s := (Option.some_inj.mp ha).symm
  have hb2 : b = canonId t := (Option.some_inj.mp hb).symm
  subst ha2
  subst hb2
  refine ⟨is_ancestor_canon s t, ?_, rfl, rfl, by cases w <;> rfl,
    by cases w <;> rfl⟩
  have hself : s.isPrefixOf s = true :=
    List.isPrefixOf_iff_prefix.mpr (List.prefix_refl s)
  rw [is_ancestor_canon s s, hself]

theorem claim3_witness :
    is_ancestor_of (canonId [5, 6]) (canonId [5, 6, 0, 1])
      = ([5, 6] : List Nat).isPrefixOf [5, 6, 0, 1]
  ∧ is_ancestor_of (canonId [5, 6]) (canonId [5, 6]) = true
  ∧ is_ancestor_of (.sliceId [1]) (.sliceId [1, 2])
      = ([1] : List Nat).isPrefixOf [1, 2]
  ∧ is_ancestor_of (.sliceId [1]) (.intId 17) = false
  ∧ is_ancestor_of .invalid ROOT = false
  ∧ is_ancestor_of ROOT .invalid = false :=
  claim3_ancestor_amended [5, 6] [5, 6, 0, 1] [1] [1, 2] (canonId [5, 6])
    (canonId [5, 6, 0, 1]) ROOT 17 (by decide) (by decide)
    (fromPath_eq _) (fromPath_eq _)

/-- C4: `index_of_child` postcondition: for identifiers built via
`ROOT`/`make_child`, it returns the first segment of `b`'s path right
after `a`'s path when `b` strictly extends `a`, and `none` otherwise
(not a prefix, equal paths, or an Invalid operand), never panicking. -/
theorem claim4_index_of_child (s t : List Nat) (a b w : WidgetId)
    (hs : ∀ i ∈ s, i < 2 ^ 64) (ht : ∀ i ∈ t, i < 2 ^ 64)
    (ha : fromPath s = some a) (hb : fromPath t = some b) :
    index_of_child a b
      = (if s.isPrefixOf t then (t.drop s.length).head? else none)
  ∧ index_of_child .invalid w = none
  ∧ index_of_child w .invalid = none := by
  rw [fromPath_eq] at ha hb
  have ha2 : a = canonId s := (Option.some_inj.mp ha).symm
  have hb2 : b = canonId t := (Option.some_inj.mp hb).symm
  subst ha2
  subst hb2
  refine ⟨index_of_child_canon s t, by cases w <;> rfl, by cases w <;> rfl⟩

theorem claim4_witness :
    index_of_child (canonId [5, 6]) (canonId [5, 6, 0, 1])
      = (if ([5, 6] : List Nat).isPrefixOf [5, 6, 0, 1]
          then (([5, 6, 0, 1] : List Nat).drop 2).head? else none)
  ∧ index_of_child .invalid ROOT = none
  ∧ index_of_child ROOT .invalid = none :=
  claim4_index_of_child [5, 6] [5, 6, 0, 1] (canonId [5, 6])
    (canonId [5, 6, 0, 1]) ROOT (by decide) (by decide)
    (fromPath_eq _) (fromPath_eq _)

/-- C5 (code bug): the inline identifier for `[0,0,0]` (built by
`make_child`, word 49) and the out-of-line array `[0,0,0]` compare
equal, but `impl Hash` writes a single `write_u64(49)` for the former
and a length prefix plus three `write_usize` calls for the latter —
different hasher streams, so equal identifiers hash differently,
violating the claimed consistency of hashing with equality. -/
theorem claim5_hash_inconsistent_with_eq :
    fromPath [0, 0, 0] = some (canonId [0, 0, 0])
  ∧ canonId [0, 0, 0] = .intId 49
  ∧ eqv (canonId [0, 0, 0]) (.sliceId [0, 0, 0]) = some true
  ∧ hashStream (canonId [0, 0, 0]) = [.u64 49]
  ∧ hashStream (.sliceId [0, 0, 0])
      = [.lenPrefix 3, .usizeVal 0, .usizeVal 0, .usizeVal 0]
  ∧ hashStream (canonId [0, 0, 0]) ≠ hashStream (.sliceId [0, 0, 0]) := by
  decide

/-- C6: Invalid-identifier asymmetry: equality panics whenever either
operand is Invalid (Invalid vs Invalid and Invalid vs valid, in either
order), while `is_ancestor_of` returns `false` without panicking, and
in particular `ROOT.is_ancestor_of(invalid) = false`. -/
theorem claim6_invalid_asymmetry (w : WidgetId) (s : List Nat)
    (hs : ∀ i ∈ s, i < 2 ^ 64) (a : WidgetId) (ha : fromPath s = some a) :
    eqv .invalid .invalid = none
  ∧ eqv .invalid w = none
  ∧ eqv w .invalid = none
  ∧ eqv .invalid a = none
  ∧ eqv a .invalid = none
  ∧ is_ancestor_of .invalid w = false
  ∧ is_ancestor_of w .invalid = false
  ∧ is_ancestor_of ROOT .invalid = false := by
  refine ⟨rfl, by cases w <;> rfl, by cases w <;> rfl, by cases a <;> rfl,
    by cases a <;> rfl, by cases w <;> rfl, by cases w <;> rfl, rfl⟩

theorem claim6_witness :
    eqv .invalid .invalid = none
  ∧ eqv .invalid ROOT = none
  ∧ eqv ROOT .invalid = none
  ∧ eqv .invalid (canonId [7]) = none
  ∧ eqv (canonId [7]) .invalid = none
  ∧ is_ancestor_of .invalid ROOT = false
  ∧ is_ancestor_of ROOT .invalid = false
  ∧ is_ancestor_of ROOT .invalid = false :=
  claim6_invalid_asymmetry ROOT [7] (by decide) (canonId [7]) (fromPath_eq _)

/-- C7: Raw-integer round-trip: `as_u64` of a valid identifier is
non-zero and `opt_from_u64` accepts it and returns the identical 64-bit
pattern, both for the inline variant (canonical word of a fitting path)
and for the out-of-line variant (aligned heap pointer tagged with `USE_PTR`);
re-interpreting the preserved bits under the unchanged heap yields an
identifier equal to the original, and `opt_to_u64` maps `None` to 0 and
`Some` to the (non-zero) bits. -/
theorem claim7_raw_u64_roundtrip (s : List Nat) (addr : Nat)
    (heap : Nat → List Nat)
    (hs : ∀ i ∈ s, i < 2 ^ 64) (hfit : (blocksOf s).length ≤ 14)
    (ha4 : addr % 4 = 0) (ha0 : addr ≠ 0) (ha64 : addr < 2 ^ 64) :
    fromPath s = some (.intId (bitsOfPath s))
  ∧ optFromU64 (bitsOfPath s) = some (some (bitsOfPath s))
  ∧ bitsOfPath s ≠ 0
  ∧ getVariant heap (bitsOfPath s) = .intId (bitsOfPath s)
  ∧ eqv (getVariant heap (bitsOfPath s)) (.intId (bitsOfPath s)) = some true
  ∧ optFromU64 (addr ||| 2) = some (some (addr ||| 2))
  ∧ (addr ||| 2) ≠ 0
  ∧ getVariant heap (addr ||| 2) = .sliceId (heap addr)
  ∧ eqv (getVariant heap (addr ||| 2)) (.sliceId (heap addr)) = some true
  ∧ optToU64 none = 0
  ∧ optToU64 (some (bitsOfPath s)) = bitsOfPath s
  ∧ optToU64 (some (addr ||| 2)) = addr ||| 2 := by
  have hfp : fromPath s = some (.intId (bitsOfPath s)) := by
    rw [fromPath_eq]
    unfold canonId
    rw [if_pos hfit]
  refine ⟨hfp, optFromU64_int hfit, bitsOfPath_ne_zero hfit,
    getVariant_int hfit heap, ?_, optFromU64_ptr ha4 ha0, ?_,
    getVariant_ptr ha4 ha64 heap, ?_, rfl, rfl, rfl⟩
  · rw [getVariant_int hfit heap]
    simp [eqv]
  · rw [ptr_or_two ha4]
    omega
  · rw [getVariant_ptr ha4 ha64 heap]
    simp [eqv]

theorem claim7_witness :
    fromPath [1, 2, 3] = some (.intId (bitsOfPath [1, 2, 3]))
  ∧ optFromU64 (bitsOfPath [1, 2, 3]) = some (some (bitsOfPath [1, 2, 3]))
  ∧ bitsOfPath [1, 2, 3] ≠ 0
  ∧ getVariant (fun _ => [1, 2]) (bitsOfPath [1, 2, 3])
      = .intId (bitsOfPath [1, 2, 3])
  ∧ eqv (getVariant (fun _ => [1, 2]) (bitsOfPath [1, 2, 3]))
      (.intId (bitsOfPath [1, 2, 3])) = some true
  ∧ optFromU64 (256 ||| 2) = some (some (256 ||| 2))
  ∧ ((256 : Nat) ||| 2) ≠ 0
  ∧ getVariant (fun _ => [1, 2]) (256 ||| 2) = .sliceId [1, 2]
  ∧ eqv (getVariant (fun _ => [1, 2]) (256 ||| 2)) (.sliceId [1, 2]) = some true
  ∧ optToU64 none = 0
  ∧ optToU64 (some (bitsOfPath [1, 2, 3])) = bitsOfPath [1, 2, 3]
  ∧ optToU64 (some (256 ||| 2)) = 256 ||| 2 :=
  claim7_raw_u64_roundtrip [1, 2, 3] 256 (fun _ => [1, 2]) (by decide)
    (by decide) (by decide) (by decide) (by decide)

/-- C8: Reference-count invariant for the out-of-line block: starting
from a fresh block (count 1), `N` clones raise the count to `N + 1`
(aborting only on increment-from-zero or from `usize::MAX`); after any
`k ≤ N` of the `N + 1` drops the block is still allocated with count
`N + 1 - k` (the number of live handles), and the full sequence of
`N + 1` drops frees the block exactly at the last drop. -/
theorem claim8_refcount (N k : Nat) (hN : N + 2 ≤ 2 ^ 64) (hk : k ≤ N) :
    rcRun (.live 1) (List.replicate N .clone) = some (.live (N + 1))
  ∧ rcRun (.live 1) (List.replicate N .clone ++ List.replicate k .drop)
      = some (.live (N + 1 - k))
  ∧ rcRun (.live 1) (List.replicate N .clone ++ List.replicate (N + 1) .drop)
      = some .freed := by
  have hclones : rcRun (.live 1) (List.replicate N .clone)
      = some (.live (N + 1)) := by
    rw [rcRun_clones N 1 (by omega) (by omega)]
    congr 2
    omega
  refine ⟨hclones, ?_, ?_⟩
  · rw [rcRun_append, hclones]
    show rcRun (.live (N + 1)) (List.replicate k .drop) = _
    exact rcRun_drops k (N + 1) (by omega)
  · rw [rcRun_append, hclones]
    show rcRun (.live (N + 1)) (List.replicate (N + 1) .drop) = _
    rw [List.replicate_succ' N RcOp.drop, rcRun_append,
      rcRun_drops N (N + 1) (by omega)]
    show rcRun (.live (N + 1 - N)) [.drop] = _
    rw [show N + 1 - N = 1 from by omega]
    rfl

theorem claim8_witness :
    rcRun (.live 1) (List.replicate 3 .clone) = some (.live 4)
  ∧ rcRun (.live 1) (List.replicate 3 .clone ++ List.replicate 2 .drop)
      = some (.live 2)
  ∧ rcRun (.live 1) (List.replicate 3 .clone ++ List.replicate 4 .drop)
      = some .freed :=
  claim8_refcount 3 2 (by norm_num) (by norm_num)

/-- C9: Display format: every identifier built from a path renders as
`#` followed by each index in hexadecimal with exactly one digit per
4-bit block of its encoding; the rendering is identical for the inline
and out-of-line variants of the same path; `ROOT` renders as `#`,
`[1,2,3]` as `#123`, `[321]` as `#d81`, and Invalid as `#INVALID`. -/
theorem claim9_display (s p : List Nat)
    (hs : ∀ i ∈ s, i < 2 ^ 64) (hp : (blocksOf p).length ≤ 14) :
    display (canonId s) = String.mk ('#' ::
      (s.map fun i => (encBlocks (i % 2 ^ 48)).map hexChar).flatten)
  ∧ fromPath s = some (canonId s)
  ∧ display (.sliceId p) = display (.intId (bitsOfPath p))
  ∧ display .invalid = "#INVALID"
  ∧ display ROOT = "#"
  ∧ display (canonId [1, 2, 3]) = "#123"
  ∧ display (canonId [321]) = "#d81" := by
  refine ⟨display_canon s, fromPath_eq s, ?_, rfl, by decide, by decide,
    by decide⟩
  have h1 : display (.intId (bitsOfPath p)) = display (canonId p) := by
    unfold canonId
    rw [if_pos hp]
  rw [h1, display_canon p, display_slice p]

theorem claim9_witness :
    display (canonId [313553, 13513, 13511631]) = String.mk ('#' ::
      (([313553, 13513, 13511631] : List Nat).map
        fun i => (encBlocks (i % 2 ^ 48)).map hexChar).flatten)
  ∧ fromPath [313553, 13513, 13511631] = some (canonId [313553, 13513, 13511631])
  ∧ display (.sliceId [1, 2, 3]) = display (.intId (bitsOfPath [1, 2, 3]))
  ∧ display .invalid = "#INVALID"
  ∧ display ROOT = "#"
  ∧ display (canonId [1, 2, 3]) = "#123"
  ∧ display (canonId [321]) = "#d81" :=
  claim9_display [313553, 13513, 13511631] [1, 2, 3] (by decide) (by decide)

/-- C10: the raw round-trip rejects the Invalid sentinel's own output:
`as_u64` of Invalid is the all-ones word (low two bits `0b11`), and
`opt_from_u64` panics on it via the tag assertion instead of returning
the Invalid identifier, while 0 maps to `None`. -/
theorem claim10_invalid_raw_rejected :
    INVALID = 2 ^ 64 - 1
  ∧ INVALID &&& 3 = 3
  ∧ getVariant (fun _ => []) INVALID = .invalid
  ∧ optFromU64 INVALID = none
  ∧ optFromU64 0 = some none := by decide

end Kas
